import Mathlib

/-!
Verification of the breezy-builder recipe front end (src/recipe.py).

Strings are modelled as lists of characters (`Str`).  The in-memory plan
model (`RecipeBranch`) and the operations on it (`different_shape_to`,
`substitute_time`, `substitute_revno`, `resolve_revisions`,
`build_manifest`, `RecipeParser.parse`) are shallow embeddings of the
corresponding Python definitions in src/recipe.py.
-/

set_option maxHeartbeats 4000000
set_option maxRecDepth 4000

abbrev Str := List Char

/-- The recipe parser treats spaces and tabs as whitespace
(RecipeParser.whitespace_chars). -/
def isWS (c : Char) : Bool := c = ' ' || c = '\t'

/-- Python substring test `pat in s` (used with nonempty `pat`). -/
def strContains (s pat : Str) : Bool :=
  match s with
  | [] => pat.isEmpty
  | c :: rest => pat.isPrefixOf (c :: rest) || strContains rest pat

/-- Python `s.replace(pat, rep)`: replace all non-overlapping occurrences of
`pat`, scanning left to right.  (Guarded on `pat` being nonempty; every use in
the source replaces a literal placeholder such as "\x7btime\x7d".) -/
def replaceAll (s pat rep : Str) : Str :=
  match s with
  | [] => []
  | c :: rest =>
    if pat.isPrefixOf (c :: rest) ∧ pat ≠ [] then
      rep ++ replaceAll ((c :: rest).drop pat.length) pat rep
    else
      c :: replaceAll rest pat rep
termination_by s.length
decreasing_by
  · rename_i h
    simp only [List.length_drop, List.length_cons]
    have hp : 0 < pat.length := List.length_pos.mpr h.2
    omega
  · simp

/-- RecipeBranch: a plan node with `name` (None exactly for the root), `url`,
optional `revspec`, the `revid` recorded at resolution time, and
`child_branches`, a list of (branch, nest location) pairs where the location
is None for merge children (src/recipe.py, class RecipeBranch). -/
inductive RB : Type where
  | node (name : Option Str) (url : Str) (revspec : Option Str)
      (revid : Option Str) (children : List (RB × Option Str)) : RB

def RB.name : RB → Option Str
  | .node n _ _ _ _ => n

def RB.url : RB → Str
  | .node _ u _ _ _ => u

def RB.revspec : RB → Option Str
  | .node _ _ r _ _ => r

def RB.revid : RB → Option Str
  | .node _ _ _ r _ => r

def RB.children : RB → List (RB × Option Str)
  | .node _ _ _ _ cs => cs

mutual

/-- RecipeBranch.different_shape_to: tests whether the name, url and
child_branches (locations and recursive shape, after a length check)
differ; revspec and revid are never consulted. -/
def different_shape_to : RB → RB → Bool
  | .node n u _ _ cs, .node n2 u2 _ _ cs2 =>
    if n ≠ n2 then true
    else if u ≠ u2 then true
    else if cs.length ≠ cs2.length then true
    else children_different_shape cs cs2

/-- The loop of different_shape_to over corresponding child pairs.  The
second-list-exhausted case is unreachable from different_shape_to because the
length check precedes the loop. -/
def children_different_shape :
    List (RB × Option Str) → List (RB × Option Str) → Bool
  | [], _ => false
  | _ :: _, [] => false
  | (c, loc) :: rest, (c2, loc2) :: rest2 =>
    if loc ≠ loc2 then true
    else if different_shape_to c c2 then true
    else children_different_shape rest rest2

end

mutual

/-- Rewrite every node's revspec and revid fields, leaving the shape
(name, url, child ordering, nest locations) untouched. -/
def setRevs (f g : Option Str → Option Str) : RB → RB
  | .node n u rs ri cs => .node n u (f rs) (g ri) (setRevsChildren f g cs)

def setRevsChildren (f g : Option Str → Option Str) :
    List (RB × Option Str) → List (RB × Option Str)
  | [] => []
  | (c, loc) :: rest => (setRevs f g c, loc) :: setRevsChildren f g rest

end

theorem setRevsChildren_length (f g : Option Str → Option Str)
    (l : List (RB × Option Str)) : (setRevsChildren f g l).length = l.length := by
  induction l with
  | nil => rfl
  | cons h t ih =>
    obtain ⟨c, loc⟩ := h
    simp [setRevsChildren, ih]

mutual

theorem shape_setRevs_both (f g f2 g2 : Option Str → Option Str) (a b : RB) :
    different_shape_to (setRevs f g a) (setRevs f2 g2 b) =
      different_shape_to a b := by
  cases a with
  | node n u rs ri cs =>
    cases b with
    | node n2 u2 rs2 ri2 cs2 =>
      simp only [setRevs, different_shape_to, setRevsChildren_length]
      by_cases h1 : n = n2
      · by_cases h2 : u = u2
        · by_cases h3 : cs.length = cs2.length
          · simp [h1, h2, h3,
              children_shape_setRevs_both f g f2 g2 cs cs2]
          · simp [h1, h2, h3]
        · simp [h1, h2]
      · simp [h1]

theorem children_shape_setRevs_both (f g f2 g2 : Option Str → Option Str)
    (l l2 : List (RB × Option Str)) :
    children_different_shape (setRevsChildren f g l) (setRevsChildren f2 g2 l2) =
      children_different_shape l l2 := by
  cases l with
  | nil => cases l2 <;> simp [setRevsChildren, children_different_shape]
  | cons h t =>
    obtain ⟨c, loc⟩ := h
    cases l2 with
    | nil => simp [setRevsChildren, children_different_shape]
    | cons h2 t2 =>
      obtain ⟨c2, loc2⟩ := h2
      simp only [setRevsChildren, children_different_shape]
      by_cases hl : loc = loc2
      · rw [shape_setRevs_both f g f2 g2 c c2]
        by_cases hc : different_shape_to c c2
        · simp [hl, hc]
        · simp [hl, hc, children_shape_setRevs_both f g f2 g2 t t2]
      · simp [hl]

end

mutual

theorem shape_refl (a : RB) : different_shape_to a a = false := by
  cases a with
  | node n u rs ri cs =>
    simp only [different_shape_to]
    simp [children_shape_refl cs]

theorem children_shape_refl (l : List (RB × Option Str)) :
    children_different_shape l l = false := by
  cases l with
  | nil => simp [children_different_shape]
  | cons h t =>
    obtain ⟨c, loc⟩ := h
    simp only [children_different_shape]
    simp [shape_refl c, children_shape_refl t]

end

mutual

theorem setRevs_id (a : RB) : setRevs (fun x => x) (fun x => x) a = a := by
  cases a with
  | node n u rs ri cs =>
    simp only [setRevs]
    rw [setRevsChildren_id cs]

theorem setRevsChildren_id (l : List (RB × Option Str)) :
    setRevsChildren (fun x => x) (fun x => x) l = l := by
  cases l with
  | nil => rfl
  | cons h t =>
    obtain ⟨c, loc⟩ := h
    simp only [setRevsChildren]
    rw [setRevs_id c, setRevsChildren_id t]

end

/-- C10: different_shape_to never reads the revision fields: rewriting the
revspec and revid fields arbitrarily at every node of either tree leaves its
result unchanged, and in particular a tree is shape-equal to any
revision-rewriting of itself (so a plan re-parsed from a manifest, whose
revspecs are revid: strings, is shape-equal to the original). -/
theorem c10_shape_ignores_revisions (f g f2 g2 : Option Str → Option Str)
    (a b : RB) :
    different_shape_to (setRevs f g a) (setRevs f2 g2 b) =
        different_shape_to a b ∧
      different_shape_to a (setRevs f g a) = false := by
  constructor
  · exact shape_setRevs_both f g f2 g2 a b
  · have h := shape_setRevs_both (fun x => x) (fun x => x) f g a a
    rw [setRevs_id a] at h
    rw [h, shape_refl]

/-! ## Time substitution (BaseRecipeBranch.substitute_time) -/

/-- Decidable digit test on characters. -/
def isDigitCh (c : Char) : Bool := decide (48 ≤ c.toNat ∧ c.toNat ≤ 57)

/-- The decimal digit character for `n % 10`. -/
def digitChar (n : Nat) : Char :=
  match n % 10 with
  | 0 => '0' | 1 => '1' | 2 => '2' | 3 => '3' | 4 => '4'
  | 5 => '5' | 6 => '6' | 7 => '7' | 8 => '8' | _ => '9'

/-- Decimal digit string of `n`, most significant first (fuel-indexed). -/
def natDigitsAux : Nat → Nat → Str
  | 0, _ => []
  | fuel + 1, n => if n = 0 then [] else natDigitsAux fuel (n / 10) ++ [digitChar n]

/-- Decimal rendering of a natural number. -/
def natDigits (n : Nat) : Str := if n = 0 then ['0'] else natDigitsAux n n

/-- Zero-padded decimal rendering, as strftime does for each component. -/
def padNum (w n : Nat) : Str :=
  List.replicate (w - (natDigits n).length) '0' ++ natDigits n

/-- A wall-clock timestamp, the argument of substitute_time. -/
structure TimeStamp where
  year : Nat
  month : Nat
  day : Nat
  hour : Nat
  minute : Nat

/-- time.strftime("%Y%m%d%H%M"): the zero-padded digit rendering of the
timestamp components. -/
def strftimeYmdHM (t : TimeStamp) : Str :=
  padNum 4 t.year ++ padNum 2 t.month ++ padNum 2 t.day ++
    padNum 2 t.hour ++ padNum 2 t.minute

/-- The literal placeholder "\x7btime\x7d" looked up by substitute_time. -/
def timeTok : Str := ['\x7b', 't', 'i', 'm', 'e', '\x7d']

/-- BaseRecipeBranch.substitute_time: if "\x7btime\x7d" occurs in deb_version,
replace every occurrence with the formatted timestamp. -/
def substitute_time (t : TimeStamp) (deb_version : Str) : Str :=
  if strContains deb_version timeTok then
    replaceAll deb_version timeTok (strftimeYmdHM t)
  else deb_version

theorem isDigitCh_digitChar (n : Nat) : isDigitCh (digitChar n) = true := by
  unfold digitChar
  split <;> decide

theorem natDigitsAux_digits (fuel n : Nat) (c : Char)
    (hc : c ∈ natDigitsAux fuel n) : isDigitCh c = true := by
  induction fuel generalizing n with
  | zero => simp [natDigitsAux] at hc
  | succ fuel ih =>
    simp only [natDigitsAux] at hc
    by_cases hn : n = 0
    · simp [hn] at hc
    · rw [if_neg hn] at hc
      rcases List.mem_append.mp hc with h | h
      · exact ih _ h
      · simp at h
        rw [h]
        exact isDigitCh_digitChar n

theorem natDigits_digits (n : Nat) (c : Char) (hc : c ∈ natDigits n) :
    isDigitCh c = true := by
  unfold natDigits at hc
  by_cases hn : n = 0
  · simp [hn] at hc
    rw [hc]; decide
  · rw [if_neg hn] at hc
    exact natDigitsAux_digits _ _ _ hc

theorem padNum_digits (w n : Nat) (c : Char) (hc : c ∈ padNum w n) :
    isDigitCh c = true := by
  unfold padNum at hc
  rcases List.mem_append.mp hc with h | h
  · rw [List.eq_of_mem_replicate h]; decide
  · exact natDigits_digits _ _ h

theorem natDigits_ne_nil (n : Nat) : natDigits n ≠ [] := by
  unfold natDigits
  by_cases hn : n = 0
  · simp [hn]
  · rw [if_neg hn]
    match n, hn with
    | m + 1, _ =>
      simp [natDigitsAux]

theorem padNum_ne_nil (w n : Nat) : padNum w n ≠ [] := by
  unfold padNum
  intro h
  exact natDigits_ne_nil n (List.append_eq_nil.mp h).2

theorem strftime_digits (t : TimeStamp) (c : Char) (hc : c ∈ strftimeYmdHM t) :
    isDigitCh c = true := by
  unfold strftimeYmdHM at hc
  simp only [List.mem_append] at hc
  rcases hc with ((((h | h) | h) | h) | h) <;> exact padNum_digits _ _ _ h

theorem strftime_ne_nil (t : TimeStamp) : strftimeYmdHM t ≠ [] := by
  unfold strftimeYmdHM
  intro h
  have := (List.append_eq_nil.mp h).1
  have := (List.append_eq_nil.mp this).1
  have := (List.append_eq_nil.mp this).1
  have := (List.append_eq_nil.mp this).1
  exact padNum_ne_nil 4 t.year this

theorem strContains_digits_append (p0 : Char) (ptail : Str)
    (hp0 : isDigitCh p0 = false) (rep : Str)
    (hrep : ∀ c ∈ rep, isDigitCh c = true) (t : Str) :
    strContains (rep ++ t) (p0 :: ptail) = strContains t (p0 :: ptail) := by
  induction rep with
  | nil => simp
  | cons r rs ih =>
    simp only [List.cons_append, strContains]
    have hr : isDigitCh r = true := hrep r (List.mem_cons_self r rs)
    have hne : (p0 == r) = false := by
      apply beq_eq_false_iff_ne.mpr
      intro h
      rw [h] at hp0
      rw [hr] at hp0
      exact Bool.noConfusion hp0
    simp only [List.isPrefixOf, hne, Bool.false_and, Bool.false_or]
    exact ih (fun c hc => hrep c (List.mem_cons_of_mem r hc))

theorem isPrefixOf_replaceAll (pat rep : Str) (hpat : pat ≠ [])
    (r0 : Char) (rtail : Str) (hrep : rep = r0 :: rtail)
    (hr0 : isDigitCh r0 = true)
    (q : Str) (hq : ∀ c ∈ q, isDigitCh c = false) :
    ∀ u, q.isPrefixOf (replaceAll u pat rep) = true → q.isPrefixOf u = true := by
  induction q with
  | nil => intro u _; simp [List.isPrefixOf]
  | cons a q2 ih =>
    intro u hpre
    have ha : isDigitCh a = false := hq a (List.mem_cons_self a q2)
    cases u with
    | nil =>
      simp [replaceAll, List.isPrefixOf] at hpre
    | cons c rest =>
      rw [replaceAll] at hpre
      by_cases hif : pat.isPrefixOf (c :: rest) = true ∧ pat ≠ []
      · rw [if_pos hif] at hpre
        rw [hrep] at hpre
        simp only [List.cons_append, List.isPrefixOf, Bool.and_eq_true,
          beq_iff_eq] at hpre
        rw [hpre.1] at ha
        rw [hr0] at ha
        exact Bool.noConfusion ha
      · rw [if_neg hif] at hpre
        simp only [List.isPrefixOf, Bool.and_eq_true, beq_iff_eq] at hpre ⊢
        refine ⟨hpre.1, ?_⟩
        cases q2 with
        | nil => simp [List.isPrefixOf]
        | cons b q3 =>
          exact ih (fun d hd => hq d (List.mem_cons_of_mem a hd)) rest hpre.2

theorem notContains_replaceAll (p0 : Char) (ptail : Str)
    (hp0 : isDigitCh p0 = false) (hptail : ∀ c ∈ ptail, isDigitCh c = false)
    (rep : Str) (r0 : Char) (rtail : Str) (hrepeq : rep = r0 :: rtail)
    (hr0 : isDigitCh r0 = true) (hrep : ∀ c ∈ rep, isDigitCh c = true) :
    ∀ u, strContains (replaceAll u (p0 :: ptail) rep) (p0 :: ptail) = false := by
  suffices h : ∀ n u, u.length ≤ n →
      strContains (replaceAll u (p0 :: ptail) rep) (p0 :: ptail) = false by
    intro u
    exact h u.length u le_rfl
  intro n
  induction n with
  | zero =>
    intro u hu
    have : u = [] := List.eq_nil_of_length_eq_zero (Nat.le_zero.mp hu)
    rw [this]
    simp [replaceAll, strContains]
  | succ n ih =>
    intro u hu
    cases u with
    | nil => simp [replaceAll, strContains]
    | cons c rest =>
      rw [replaceAll]
      by_cases hif : (p0 :: ptail).isPrefixOf (c :: rest) = true ∧
          (p0 :: ptail) ≠ []
      · rw [if_pos hif]
        rw [strContains_digits_append p0 ptail hp0 rep hrep]
        apply ih
        simp only [List.length_cons] at hu
        simp only [List.length_drop, List.length_cons]
        omega
      · rw [if_neg hif]
        simp only [strContains, Bool.or_eq_false_iff]
        constructor
        · by_cases hpre :
              (p0 :: ptail).isPrefixOf
                (c :: replaceAll rest (p0 :: ptail) rep) = true
          · exfalso
            simp only [List.isPrefixOf, Bool.and_eq_true, beq_iff_eq] at hpre
            have h2 : ptail.isPrefixOf rest = true :=
              isPrefixOf_replaceAll (p0 :: ptail) rep (by simp)
                r0 rtail hrepeq hr0 ptail hptail rest hpre.2
            apply hif
            refine ⟨?_, by simp⟩
            simp only [List.isPrefixOf, Bool.and_eq_true, beq_iff_eq]
            exact ⟨hpre.1, h2⟩
          · cases hh : (p0 :: ptail).isPrefixOf
                (c :: replaceAll rest (p0 :: ptail) rep) with
            | false => rfl
            | true => exact absurd hh hpre
        · apply ih
          simp only [List.length_cons] at hu
          omega

/-- C6: time substitution is idempotent: for every template string and every
fixed timestamp, applying substitute_time twice yields the same string as
applying it once (the substituted text is all digits, so no literal
"\x7btime\x7d" placeholder survives the first pass). -/
theorem c6_substitute_time_idempotent (t : TimeStamp) (deb_version : Str) :
    substitute_time t (substitute_time t deb_version) =
      substitute_time t deb_version := by
  unfold substitute_time
  by_cases h : strContains deb_version timeTok = true
  · rw [if_pos h]
    have key : strContains (replaceAll deb_version timeTok (strftimeYmdHM t))
        timeTok = false := by
      obtain ⟨r0, rtail, hrepeq⟩ : ∃ r0 rtail, strftimeYmdHM t = r0 :: rtail := by
        cases hst : strftimeYmdHM t with
        | nil => exact absurd hst (strftime_ne_nil t)
        | cons a b => exact ⟨a, b, rfl⟩
      have hr0 : isDigitCh r0 = true := by
        apply strftime_digits t
        rw [hrepeq]
        exact List.mem_cons_self r0 rtail
      have := notContains_replaceAll '\x7b' ['t', 'i', 'm', 'e', '\x7d']
        (by decide) (by decide) (strftimeYmdHM t) r0 rtail hrepeq hr0
        (strftime_digits t) deb_version
      exact this
    rw [key]
    simp
  · rw [if_neg h, if_neg h]

/-! ## Revision resolution (resolve_revisions, src/recipe.py:195-277) -/

/-- The VCS provider boundary.  `lastRevision url` models
branch.Branch.open(url).last_revision(); `resolveSpec url spec` models
RevisionSpec.from_string(spec).as_revision_id(branch.Branch.open(url));
`revnoOf url revid` models get_revno's revno lookup (none when the revno
cannot be determined). -/
structure VCSEnv where
  lastRevision : Str → Str
  resolveSpec : Str → Str → Str
  revnoOf : Str → Str → Option Str

/-- The revision id a branch url resolves to: the revspec resolved against
the branch when present, its last revision otherwise (the common pattern of
_resolve_revisions_recurse, update_branch and merge_branch). -/
def resolvedOfF (env : VCSEnv) (url : Str) (revspec : Option Str) : Str :=
  match revspec with
  | some rs => env.resolveSpec url rs
  | none => env.lastRevision url

/-- `resolvedOfF` applied to a branch's own url and revspec. -/
def resolvedOf (env : VCSEnv) (b : RB) : Str :=
  resolvedOfF env b.url b.revspec

/-- BaseRecipeBranch.substitute_revno: replace "\x7brevno\x7d" (for the root)
or "\x7brevno:name\x7d" in deb_version by the branch's revno; fatal error when
the substitution is needed but the revno cannot be determined.  (The source's
error message contains a literal %s: the format string is never filled in.) -/
def substitute_revno (branch_name : Option Str) (get_revno : Option Str)
    (deb_version : Str) : Except Str Str :=
  let subst_string : Str :=
    match branch_name with
    | none => "\x7brevno\x7d".toList
    | some n => "\x7brevno:".toList ++ n ++ "\x7d".toList
  if strContains deb_version subst_string then
    match get_revno with
    | none =>
      .error ("Can\x27t substitute revno of branch %s in deb-version, as it\x27s revno can\x27t be determined".toList)
    | some revno => .ok (replaceAll deb_version subst_string revno)
  else .ok deb_version

mutual

/-- _resolve_revisions_recurse: resolve this branch's revision id, record it
in revid, substitute its revno into the root deb_version, compare against
if_changed_from's resolved revision when applicable, and recurse over the
children positionally.  Returns the updated branch, the updated deb_version
and the changed flag. -/
def resolve_revisions_recurse (env : VCSEnv) (nb : RB)
    (if_changed_from : Option RB) (deb_version : Str) :
    Except Str (RB × Str × Bool) :=
  match nb with
  | .node name url revspec _ children =>
    let revision_id : Str := resolvedOfF env url revspec
    match substitute_revno name (env.revnoOf url revision_id) deb_version with
    | .error e => .error e
    | .ok debv2 =>
      let changed : Bool :=
        match if_changed_from with
        | none => false
        | some ifc =>
          if revspec ≠ none ∨ ifc.revspec ≠ none then
            -- the comparison revision is resolved against the NEW branch's url
            let changed_revision_id : Str := resolvedOfF env url ifc.revspec
            decide (revision_id ≠ changed_revision_id)
          else false
      let ifcs : Option (List (RB × Option Str)) :=
        match if_changed_from with
        | none => none
        | some ifc => some ifc.children
      match resolve_children env children ifcs debv2 with
      | .error e => .error e
      | .ok (children2, debv3, children_changed) =>
        .ok (.node name url revspec (some revision_id) children2, debv3,
          changed || children_changed)

/-- The children loop of _resolve_revisions_recurse, walking the
if_changed_from children positionally alongside.  (When the comparison list
is exhausted early the source raises IndexError; that case is unreachable
from resolve_revisions, which only passes shape-equal trees; it is modelled
as comparing against nothing.) -/
def resolve_children (env : VCSEnv) (cs : List (RB × Option Str))
    (ifcs : Option (List (RB × Option Str))) (deb_version : Str) :
    Except Str (List (RB × Option Str) × Str × Bool) :=
  match cs with
  | [] => .ok ([], deb_version, false)
  | (child, loc) :: rest =>
    let if_changed_child : Option RB :=
      match ifcs with
      | none => none
      | some [] => none
      | some ((c2, _) :: _) => some c2
    let ifcs_rest : Option (List (RB × Option Str)) :=
      match ifcs with
      | none => none
      | some l => some l.tail
    match resolve_revisions_recurse env child if_changed_child deb_version with
    | .error e => .error e
    | .ok (child2, debv2, child_changed) =>
      match resolve_children env rest ifcs_rest debv2 with
      | .error e => .error e
      | .ok (rest2, debv3, rest_changed) =>
        .ok ((child2, loc) :: rest2, debv3, child_changed || rest_changed)

end

/-- The shape comparison made first by resolve_revisions. -/
def changed_shape (base_branch : RB) (if_changed_from : Option RB) : Bool :=
  match if_changed_from with
  | none => false
  | some ifc => different_shape_to base_branch ifc

/-- The comparison plan handed to _resolve_revisions_recurse: dropped when
the shapes already differ. -/
def ifc_revisions (base_branch : RB) (if_changed_from : Option RB) :
    Option RB :=
  if changed_shape base_branch if_changed_from then none else if_changed_from

/-- resolve_revisions (src/recipe.py:247): resolve all the unknowns in
base_branch, substituting revnos into deb_version, and compare shape and
revisions against if_changed_from.  Errors when deb_version still contains a
brace after substitution.  The Bool result is the source's return value:
False exactly when if_changed_from is present and nothing changed. -/
def resolve_revisions (env : VCSEnv) (base_branch : RB) (deb_version : Str)
    (if_changed_from : Option RB) : Except Str (RB × Str × Bool) :=
  let changed : Bool := changed_shape base_branch if_changed_from
  match resolve_revisions_recurse env base_branch
      (ifc_revisions base_branch if_changed_from) deb_version with
  | .error e => .error e
  | .ok (base2, debv2, changed_revisions) =>
    let changed2 : Bool := changed || changed_revisions
    if strContains debv2 ['\x7b'] then
      .error ("deb-version not fully expanded: ".toList ++ debv2)
    else if if_changed_from.isSome && !changed2 then
      .ok (base2, debv2, false)
    else
      .ok (base2, debv2, true)

mutual

/-- Every corresponding node of two trees resolves (through the provider,
against its own url) to the same concrete revision id. -/
def allSameResolved (env : VCSEnv) : RB → RB → Bool
  | .node _ u rs _ cs, .node _ u2 rs2 _ cs2 =>
    (resolvedOfF env u rs == resolvedOfF env u2 rs2) &&
      allSameResolvedChildren env cs cs2

def allSameResolvedChildren (env : VCSEnv) :
    List (RB × Option Str) → List (RB × Option Str) → Bool
  | [], [] => true
  | [], _ :: _ => false
  | _ :: _, [] => false
  | (c, _) :: rest, (c2, _) :: rest2 =>
    allSameResolved env c c2 && allSameResolvedChildren env rest rest2

end

theorem shape_false_parts (n : Option Str) (u : Str) (rs ri : Option Str)
    (cs : List (RB × Option Str)) (n2 : Option Str) (u2 : Str)
    (rs2 ri2 : Option Str) (cs2 : List (RB × Option Str))
    (h : different_shape_to (.node n u rs ri cs) (.node n2 u2 rs2 ri2 cs2) =
      false) :
    n = n2 ∧ u = u2 ∧ cs.length = cs2.length ∧
      children_different_shape cs cs2 = false := by
  rw [different_shape_to] at h
  by_cases h1 : n = n2
  · by_cases h2 : u = u2
    · by_cases h3 : cs.length = cs2.length
      · simp [h1, h2, h3] at h
        exact ⟨h1, h2, h3, h⟩
      · simp [h1, h2, h3] at h
    · simp [h1, h2] at h
  · simp [h1] at h

theorem children_shape_false_parts (c : RB) (loc : Option Str)
    (rest : List (RB × Option Str)) (c2 : RB) (loc2 : Option Str)
    (rest2 : List (RB × Option Str))
    (h : children_different_shape ((c, loc) :: rest) ((c2, loc2) :: rest2) =
      false) :
    loc = loc2 ∧ different_shape_to c c2 = false ∧
      children_different_shape rest rest2 = false := by
  rw [children_different_shape] at h
  by_cases h1 : loc = loc2
  · by_cases h2 : different_shape_to c c2 = true
    · simp [h1, h2] at h
    · simp [h1, h2] at h
      exact ⟨h1, Bool.not_eq_true _ ▸ (by simpa using h2), h⟩
  · simp [h1] at h

theorem decide_ne_eq_not_beq (a b : Str) : (decide (a ≠ b)) = !(a == b) := by
  by_cases h : a = b <;> simp [h]

mutual

theorem recurse_changed_eq (env : VCSEnv) (n o : RB) (d : Str)
    (hsh : different_shape_to n o = false) (res : RB × Str × Bool)
    (hok : resolve_revisions_recurse env n (some o) d = .ok res) :
    res.2.2 = !(allSameResolved env n o) := by
  cases n with
  | node nm u rs ri cs =>
    cases o with
    | node nm2 u2 rs2 ri2 cs2 =>
      obtain ⟨h1, h2, h3, h4⟩ :=
        shape_false_parts nm u rs ri cs nm2 u2 rs2 ri2 cs2 hsh
      simp only [resolve_revisions_recurse, RB.children, RB.revspec] at hok
      split at hok
      · exact absurd hok (by simp)
      · rename_i debv2 hs
        split at hok
        · exact absurd hok (by simp)
        · rename_i children2 debv3 children_changed hc
          simp only [Except.ok.injEq] at hok
          rw [← hok]
          simp only [allSameResolved]
          have hch : children_changed =
              !(allSameResolvedChildren env cs cs2) :=
            children_changed_eq env cs cs2 debv2 h3 h4
              (children2, debv3, children_changed) hc
          have hnode :
              (if rs ≠ none ∨ rs2 ≠ none then
                  decide (resolvedOfF env u rs ≠ resolvedOfF env u rs2)
                else false) =
                !(resolvedOfF env u rs == resolvedOfF env u2 rs2) := by
            subst h2
            by_cases hcond : rs ≠ none ∨ rs2 ≠ none
            · rw [if_pos hcond]
              exact decide_ne_eq_not_beq _ _
            · push_neg at hcond
              obtain ⟨ha, hb⟩ := hcond
              subst ha; subst hb
              simp
          rw [hch, hnode]
          simp [Bool.not_and]

theorem children_changed_eq (env : VCSEnv) (cs cs2 : List (RB × Option Str))
    (d : Str) (hlen : cs.length = cs2.length)
    (hsh : children_different_shape cs cs2 = false)
    (res : List (RB × Option Str) × Str × Bool)
    (hok : resolve_children env cs (some cs2) d = .ok res) :
    res.2.2 = !(allSameResolvedChildren env cs cs2) := by
  cases cs with
  | nil =>
    cases cs2 with
    | nil =>
      rw [resolve_children] at hok
      simp only [Except.ok.injEq] at hok
      rw [← hok]
      simp [allSameResolvedChildren]
    | cons x xs => simp at hlen
  | cons hd rest =>
    obtain ⟨c, loc⟩ := hd
    cases cs2 with
    | nil => simp at hlen
    | cons hd2 rest2 =>
      obtain ⟨c2, loc2⟩ := hd2
      obtain ⟨hl, hc2, hrest⟩ :=
        children_shape_false_parts c loc rest c2 loc2 rest2 hsh
      simp only [resolve_children, List.tail_cons] at hok
      split at hok
      · exact absurd hok (by simp)
      · rename_i cc dd b1 hr1
        split at hok
        · exact absurd hok (by simp)
        · rename_i cc2 dd2 b2 hr2
          simp only [Except.ok.injEq] at hok
          rw [← hok]
          simp only [allSameResolvedChildren]
          have e1 : b1 = !(allSameResolved env c c2) :=
            recurse_changed_eq env c c2 d hc2 (cc, dd, b1) hr1
          have e2 : b2 = !(allSameResolvedChildren env rest rest2) :=
            children_changed_eq env rest rest2 dd (by simpa using hlen) hrest
              (cc2, dd2, b2) hr2
          rw [e1, e2]
          simp [Bool.not_and]

end

/-- C1: change detection by resolve_revisions: with no old plan the verdict
is always Changed (true); with an old plan of different shape, Changed
regardless of revisions; with an old plan of equal shape the verdict is
Changed exactly when some corresponding branch resolves to a different
concrete revision, hence Unchanged (false) when every corresponding branch
resolves identically. -/
theorem c1_change_detection (env : VCSEnv) (base : RB) (d : Str)
    (ifc : Option RB) (res : RB × Str × Bool)
    (hok : resolve_revisions env base d ifc = .ok res) :
    (ifc = none → res.2.2 = true) ∧
    (∀ o, ifc = some o → different_shape_to base o = true → res.2.2 = true) ∧
    (∀ o, ifc = some o → different_shape_to base o = false →
      res.2.2 = !(allSameResolved env base o)) := by
  refine ⟨?_, ?_, ?_⟩
  · rintro rfl
    simp only [resolve_revisions, changed_shape, ifc_revisions, if_false,
      Bool.false_or] at hok
    split at hok
    · exact absurd hok (by simp)
    · rename_i b2 d2 cr hrec
      split at hok
      · exact absurd hok (by simp)
      · rw [if_neg (by simp)] at hok
        simp only [Except.ok.injEq] at hok
        rw [← hok]
  · rintro o rfl hdiff
    simp only [resolve_revisions, changed_shape, ifc_revisions, hdiff,
      if_true, Bool.true_or] at hok
    split at hok
    · exact absurd hok (by simp)
    · rename_i b2 d2 cr hrec
      split at hok
      · exact absurd hok (by simp)
      · rw [if_neg (by simp)] at hok
        simp only [Except.ok.injEq] at hok
        rw [← hok]
  · rintro o rfl hdiff
    simp only [resolve_revisions, changed_shape, ifc_revisions, hdiff,
      if_false, Bool.false_or] at hok
    split at hok
    · exact absurd hok (by simp)
    · rename_i b2 d2 cr hrec
      have hcr : cr = !(allSameResolved env base o) :=
        recurse_changed_eq env base o d hdiff (b2, d2, cr) hrec
      split at hok
      · exact absurd hok (by simp)
      · cases hcrv : cr with
        | true =>
          rw [hcrv] at hok hcr
          rw [if_neg (by simp)] at hok
          simp only [Except.ok.injEq] at hok
          rw [← hok]
          exact hcr
        | false =>
          rw [hcrv] at hok hcr
          rw [if_pos (by simp)] at hok
          simp only [Except.ok.injEq] at hok
          rw [← hok]
          exact hcr

/-- A trivial provider used by the concrete witnesses: the last revision is
always "r", a revspec resolves to itself, every revno is "1". -/
def env0 : VCSEnv :=
  ⟨fun _ => ['r'], fun _ s => s, fun _ _ => some ['1']⟩

/-- A single root branch with no revspec and no children. -/
def rbU : RB := .node none ['u'] none none []

theorem c1_witness :
    resolve_revisions env0 rbU ['1'] none =
        .ok (.node none ['u'] none (some ['r']) [], ['1'], true) ∧
      ((RB.node none ['u'] none (some ['r']) [], (['1'] : Str),
          true) : RB × Str × Bool).2.2 = true :=
  ⟨rfl, (c1_change_detection env0 rbU ['1'] none _ rfl).1 rfl⟩

/-- A provider on which every revspec resolves to the same revision "r". -/
def env2 : VCSEnv :=
  ⟨fun _ => ['r'], fun _ _ => ['r'], fun _ _ => some ['1']⟩

/-- New plan: explicit revspec "a". -/
def n2 : RB := .node none ['u'] (some ['a']) none []

/-- Old plan: explicit revspec "b". -/
def o2 : RB := .node none ['u'] (some ['b']) none []

/-- C2 counterexample: the two plans have equal shape and different explicit
revision_specs ("a" vs "b"); both resolve to the same concrete revision "r";
resolve_revisions nevertheless reports Unchanged (False), contradicting the
claim that an explicit pin change alone forces Changed. -/
theorem c2_counterexample :
    n2.revspec = some ['a'] ∧ o2.revspec = some ['b'] ∧
      different_shape_to n2 o2 = false ∧
      resolvedOf env2 n2 = resolvedOf env2 o2 ∧
      resolve_revisions env2 n2 ['1'] (some o2) =
        .ok (.node none ['u'] (some ['a']) (some ['r']) [], ['1'], false) :=
  ⟨rfl, rfl, rfl, rfl, rfl⟩

/-- C2 (amended): a change of a branch's explicit revision_spec makes
resolve_revisions report Changed only when the resolved revisions differ;
when the two plans have equal shape and every corresponding branch (whatever
its revspec) resolves to the same concrete revision, the verdict is
Unchanged. -/
theorem c2_amended_coinciding_resolution_unchanged (env : VCSEnv)
    (n o : RB) (d : Str) (res : RB × Str × Bool)
    (hok : resolve_revisions env n d (some o) = .ok res)
    (hsh : different_shape_to n o = false)
    (hsame : allSameResolved env n o = true) :
    res.2.2 = false := by
  simp only [resolve_revisions, changed_shape, ifc_revisions, hsh,
    if_false, Bool.false_or] at hok
  split at hok
  · exact absurd hok (by simp)
  · rename_i b2 d2 cr hrec
    have hcr : cr = !(allSameResolved env n o) :=
      recurse_changed_eq env n o d hsh (b2, d2, cr) hrec
    rw [hsame] at hcr
    simp only [Bool.not_true] at hcr
    split at hok
    · exact absurd hok (by simp)
    · rw [hcr] at hok
      rw [if_pos (by simp)] at hok
      simp only [Except.ok.injEq] at hok
      rw [← hok]

theorem c2_amended_witness :
    resolve_revisions env2 n2 ['1'] (some o2) =
        .ok (.node none ['u'] (some ['a']) (some ['r']) [], ['1'], false) ∧
      ((RB.node none ['u'] (some ['a']) (some ['r']) [], (['1'] : Str),
          false) : RB × Str × Bool).2.2 = false :=
  ⟨rfl, c2_amended_coinciding_resolution_unchanged env2 n2 o2 ['1'] _
    rfl rfl rfl⟩

/-- C7 (amended): when, after the substitution passes, the root deb_version
still contains a brace, resolve_revisions fails with a message consisting of
"deb-version not fully expanded: " followed by the literal unexpanded
template (and nothing more: no list of valid tokens); the error preempts the
Unchanged short-circuit, whatever the comparison outcome would have been. -/
theorem c7_amended_unexpanded_template_error (env : VCSEnv) (base : RB)
    (d : Str) (ifc : Option RB) (b2 : RB) (d2 : Str) (ch : Bool)
    (hrec : resolve_revisions_recurse env base (ifc_revisions base ifc) d =
      .ok (b2, d2, ch))
    (hbrace : strContains d2 ['\x7b'] = true) :
    resolve_revisions env base d ifc =
      .error ("deb-version not fully expanded: ".toList ++ d2) := by
  simp only [resolve_revisions, hrec, hbrace, if_true]

theorem c7_amended_witness :
    resolve_revisions env2 rbU ("\x7bfoo\x7d".toList) (some rbU) =
      .error ("deb-version not fully expanded: \x7bfoo\x7d".toList) := by
  have h := c7_amended_unexpanded_template_error env2 rbU
    ("\x7bfoo\x7d".toList) (some rbU)
    (.node none ['u'] none (some ['r']) []) ("\x7bfoo\x7d".toList) false
    (by rfl) (by rfl)
  exact h

/-- C7 counterexample: for the template "\x7bfoo\x7d" (with an old plan of
identical shape and identical resolved revisions, i.e. an otherwise Unchanged
comparison) resolve_revisions raises the fatal error, but its message is
exactly "deb-version not fully expanded: \x7bfoo\x7d": it lists the literal
template only and does not mention the valid substitution tokens
"\x7btime\x7d" or "\x7brevno\x7d", contradicting the claimed message shape. -/
theorem c7_counterexample :
    resolve_revisions env2 rbU ("\x7bfoo\x7d".toList) (some rbU) =
        .error ("deb-version not fully expanded: \x7bfoo\x7d".toList) ∧
      strContains ("deb-version not fully expanded: \x7bfoo\x7d".toList)
          timeTok = false ∧
      strContains ("deb-version not fully expanded: \x7bfoo\x7d".toList)
          ("\x7brevno\x7d".toList) = false :=
  ⟨rfl, rfl, rfl⟩

/-! ## The recipe parser (class RecipeParser, src/recipe.py:473-766) -/

/-- RecipeParseError: filename, 1-based line, 1-based char and problem. -/
structure ParseErr where
  filename : Str
  line : Nat
  char : Nat
  problem : Str

/-- A parse aborts either with a RecipeParseError or (for duplicate sibling
nest locations) with the AssertionError raised by RecipeBranch.nest_branch. -/
inductive PFail where
  | parseError (e : ParseErr)
  | assertionError (msg : Str)

/-- The parser's cursor: the split lines, current line index, character
index within the line, and the current indent level. -/
structure PState where
  filename : Str
  lines : List Str
  lineIndex : Nat
  index : Nat
  currentIndentLevel : Nat

/-- self.current_line (treated as empty past the last line; the source keeps
None there but never reads it before checking line_index). -/
def currentLine (s : PState) : Str := s.lines.getD s.lineIndex []

/-- throw_parse_error: positions are 1-based. -/
def mkErr (s : PState) (problem : Str) : PFail :=
  .parseError ⟨s.filename, s.lineIndex + 1, s.index + 1, problem⟩

/-- Python "%s" format of an optional string (None prints as "None"). -/
def fmtOptStr : Option Str → Str
  | none => "None".toList
  | some s => s

/-- peek_char. -/
def peek_char (s : PState) (skip : Nat) : Option Char :=
  (currentLine s).get? (s.index + skip)

/-- take_char. -/
def take_char (s : PState) : Option Char × PState :=
  if s.index ≥ (currentLine s).length then (none, s)
  else ((currentLine s).get? s.index, { s with index := s.index + 1 })

/-- take_chars. -/
def take_chars (s : PState) (num : Nat) : Option Str × PState :=
  match num with
  | 0 => (some [], s)
  | k + 1 =>
    match take_char s with
    | (none, s2) => (none, s2)
    | (some c, s2) =>
      match take_chars s2 k with
      | (none, s3) => (none, s3)
      | (some cs, s3) => (some (c :: cs), s3)

/-- peek_to_whitespace: none at end of line, else the maximal run of
non-whitespace characters (possibly empty). -/
def peek_to_whitespace (s : PState) : Option Str :=
  if s.index < (currentLine s).length then
    some (((currentLine s).drop s.index).takeWhile (fun c => !(isWS c)))
  else none

/-- The whitespace-consuming loop shared by parse_whitespace's branches:
consume the maximal whitespace run and return it. -/
def skip_ws (s : PState) : Str × PState :=
  let run := ((currentLine s).drop s.index).takeWhile isWS
  (run, { s with index := s.index + run.length })

/-- parse_whitespace. -/
def parse_whitespace (looking_for : Str) (require : Bool) (s : PState) :
    Except PFail (Str × PState) :=
  if require then
    match peek_char s 0 with
    | none =>
      .error (mkErr s ("End of line while looking for ".toList ++ looking_for))
    | some actual =>
      if isWS actual then .ok (skip_ws s)
      else
        .error (mkErr s ("Expecting whitespace before ".toList ++ looking_for
          ++ ", got \x27".toList ++ [actual] ++ "\x27.".toList))
  else .ok (skip_ws s)

/-- new_line: jump over whitespace, require the end of the line, then move
the cursor to the start of the next line. -/
def new_line (s : PState) : Except PFail PState :=
  let s2 := (skip_ws s).2
  match peek_to_whitespace s2 with
  | some remaining =>
    .error (mkErr s2 ("Expecting the end of the line, got \x27".toList ++
      remaining ++ "\x27".toList))
  | none => .ok { s2 with index := 0, lineIndex := s2.lineIndex + 1 }

/-- parse_char. -/
def parse_char (ch : Char) (s : PState) : Except PFail (Char × PState) :=
  match peek_char s 0 with
  | none =>
    .error (mkErr s ("End of line while looking for \x27".toList ++ [ch] ++
      "\x27".toList))
  | some actual =>
    if actual = ch then .ok (ch, (take_char s).2)
    else
      .error (mkErr s ("Expecting \x27".toList ++ [ch] ++
        "\x27, got \x27".toList ++ [actual] ++ "\x27".toList))

/-- parse_word (the source compares the peeked word against `expected`
first; since `expected` is never None the order of the equality and the
end-of-line check is immaterial). -/
def parse_word (expected : Str) (require_whitespace : Bool) (s : PState) :
    Except PFail (Str × PState) :=
  match parse_whitespace ("\x27".toList ++ expected ++ "\x27".toList)
      require_whitespace s with
  | .error e => .error e
  | .ok (_, s2) =>
    match peek_to_whitespace s2 with
    | none =>
      .error (mkErr s2 ("End of line while looking for \x27".toList ++
        expected ++ "\x27".toList))
    | some actual =>
      if actual = expected then .ok (expected, (take_chars s2 expected.length).2)
      else
        .error (mkErr s2 ("Expecting \x27".toList ++ expected ++
          "\x27, got \x27".toList ++ actual ++ "\x27".toList))

/-- take_to_whitespace. -/
def take_to_whitespace (looking_for : Str) (s : PState) :
    Except PFail (Str × PState) :=
  match peek_to_whitespace s with
  | none =>
    .error (mkErr s ("End of line while looking for ".toList ++ looking_for))
  | some text => .ok (text, (take_chars s text.length).2)

/-- parse_optional_revspec. -/
def parse_optional_revspec (s : PState) : Except PFail (Option Str × PState) :=
  let s2 := (skip_ws s).2
  match peek_to_whitespace s2 with
  | none => .ok (none, s2)
  | some revspec => .ok (some revspec, (take_chars s2 revspec.length).2)

/-- _parse_integer: the digit run starting at index + skip. -/
def parse_integer_chars (s : PState) (skip : Nat) : Str :=
  ((currentLine s).drop (s.index + skip)).takeWhile isDigitCh

/-- parse_float. -/
def parse_float (looking_for : Str) (s : PState) :
    Except PFail (Str × PState) :=
  match parse_whitespace looking_for true s with
  | .error e => .error e
  | .ok (_, s2) =>
    let ret := parse_integer_chars s2 0
    if ret = [] then
      .error (mkErr s2 ("Expecting a float, got \x27".toList ++
        fmtOptStr (peek_to_whitespace s2) ++ "\x27".toList))
    else
      match peek_char s2 ret.length with
      | some '.' =>
        let ret2 := parse_integer_chars s2 (ret.length + 1)
        if ret2 = [] then
          .error (mkErr s2 ("Expecting a float, got \x27".toList ++
            fmtOptStr (peek_to_whitespace s2) ++ "\x27".toList))
        else
          .ok (ret ++ '.' :: ret2,
            (take_chars s2 (ret.length + 1 + ret2.length)).2)
      | _ => .ok (ret, (take_chars s2 ret.length).2)

/-- parse_indent: consume the leading whitespace; tabs and odd widths are
errors; a change of more than one level upward is an error; returns the old
indent level when the level changed, none otherwise. -/
def parse_indent (s : PState) : Except PFail (Option Nat × PState) :=
  let p := skip_ws s
  let new_indent := p.1
  let s2 := p.2
  if '\t' ∈ new_indent then
    .error (mkErr s2 ("Indents may not be done by tabs".toList))
  else if new_indent.length % 2 ≠ 0 then
    .error (mkErr s2 ("Indent not a multiple of two spaces".toList))
  else
    let new_indent_level := new_indent.length / 2
    if new_indent_level ≠ s2.currentIndentLevel then
      let old_indent_level := s2.currentIndentLevel
      let s3 := { s2 with currentIndentLevel := new_indent_level }
      if new_indent_level > old_indent_level ∧
          new_indent_level - old_indent_level ≠ 1 then
        .error (mkErr s3 ("Indented by more than two spaces at once".toList))
      else .ok (some old_indent_level, s3)
    else .ok (none, s2)

/-- parse_comment_line: "" for a blank remainder, none when the line is not
a comment, and for a \x23-comment the comment text after an (erroneous)
new_line call made while the comment text is still unconsumed. -/
def parse_comment_line (s : PState) : Except PFail (Option Str × PState) :=
  match peek_char s 0 with
  | none => .ok (some [], s)
  | some c =>
    if c ≠ '#' then .ok (none, s)
    else
      let comment := (currentLine s).drop s.index
      match new_line s with
      | .error e => .error e
      | .ok s2 => .ok (some comment, s2)

/-- parse_instruction. -/
def parse_instruction (s : PState) : Except PFail (Str × PState) :=
  match peek_to_whitespace s with
  | none =>
    .error (mkErr s
      ("End of line while looking for \x27nest\x27 or \x27merge\x27".toList))
  | some instruction =>
    if instruction = "nest".toList ∨ instruction = "merge".toList then
      .ok (instruction, (take_chars s instruction.length).2)
    else
      .error (mkErr s ("Expecting \x27nest\x27 or \x27merge\x27, got \x27".toList
        ++ instruction ++ "\x27".toList))

/-- parse_branch_id. -/
def parse_branch_id (s : PState) : Except PFail (Str × PState) :=
  match parse_whitespace ("the branch id".toList) true s with
  | .error e => .error e
  | .ok (_, s2) => take_to_whitespace ("the branch id".toList) s2

/-- parse_branch_url. -/
def parse_branch_url (s : PState) : Except PFail (Str × PState) :=
  match parse_whitespace ("the branch url".toList) true s with
  | .error e => .error e
  | .ok (_, s2) => take_to_whitespace ("the branch url".toList) s2

/-- parse_branch_location. -/
def parse_branch_location (s : PState) : Except PFail (Str × PState) :=
  match parse_whitespace ("the location to nest".toList) true s with
  | .error e => .error e
  | .ok (_, s2) => take_to_whitespace ("the location to nest".toList) s2

/-- parse_header: "#" "bzr-builder" "format" float "deb-version" value,
end of line.  Returns (format version, deb_version). -/
def parse_header (s : PState) : Except PFail ((Str × Str) × PState) :=
  match parse_char '#' s with
  | .error e => .error e
  | .ok (_, s1) =>
    match parse_word ("bzr-builder".toList) false s1 with
    | .error e => .error e
    | .ok (_, s2) =>
      match parse_word ("format".toList) true s2 with
      | .error e => .error e
      | .ok (_, s3) =>
        match parse_float ("format version".toList) s3 with
        | .error e => .error e
        | .ok (version, s4) =>
          match parse_word ("deb-version".toList) true s4 with
          | .error e => .error e
          | .ok (_, s5) =>
            match parse_whitespace ("a value for \x27deb-version\x27".toList)
                true s5 with
            | .error e => .error e
            | .ok (_, s6) =>
              match take_to_whitespace
                  ("a value for \x27deb-version\x27".toList) s6 with
              | .error e => .error e
              | .ok (deb_version, s7) =>
                match new_line s7 with
                | .error e => .error e
                | .ok s8 => .ok ((version, deb_version), s8)

/-- RecipeBranch.merge_branch / the list append of nest_branch: append a
child with its nest location (none for merges). -/
def addChild (b : RB) (child : RB) (loc : Option Str) : RB :=
  match b with
  | .node n u rs ri cs => .node n u rs ri (cs ++ [(child, loc)])

/-- nest_branch's assertion test: is the location already used by a sibling
(merge children contribute None, which never equals a string). -/
def locUsed (b : RB) (loc : Str) : Bool :=
  (b.children.map Prod.snd).contains (some loc)

/-- The active_branches stack, innermost branch first (the reverse of the
source's list order).  The source's list holds aliases into the tree being
built; here each stack entry owns its subtree, paired with the nest location
by which it will be re-attached to the frame below. -/
abbrev Frames := List (RB × Option Str)

/-- active_branches.append(last_branch), where last_branch is the branch
appended by the preceding nest line, i.e. the last child of the innermost
frame: that child moves into its own frame. -/
def pushFrame (frames : Frames) : Frames :=
  match frames with
  | [] => []
  | (.node n u rs ri cs, loc) :: rest =>
    match cs.getLast? with
    | none => (.node n u rs ri cs, loc) :: rest
    | some (child, cloc) =>
      (child, cloc) :: (.node n u rs ri cs.dropLast, loc) :: rest

/-- Dropping the innermost frame re-attaches its subtree (already linked in
the source through aliasing) as the last child of the frame below. -/
def popFrame (frames : Frames) : Frames :=
  match frames with
  | (child, cloc) :: (p, ploc) :: rest => (addChild p child cloc, ploc) :: rest
  | other => other

/-- active_branches = active_branches[:unindent]: drop k innermost frames. -/
def popFrames (frames : Frames) (k : Nat) : Frames :=
  match k with
  | 0 => frames
  | k + 1 => popFrames (popFrame frames) k

/-- Attach an accumulated frame into each enclosing frame in turn. -/
def foldInto (acc : RB × Option Str) : Frames → RB × Option Str
  | [] => acc
  | (p, ploc) :: rest => foldInto (addChild p acc.1 acc.2, ploc) rest

/-- Collapse the whole stack onto the root frame (in the source the tree is
already fully linked; active_branches[0] is the root). -/
def foldFrames : Frames → Frames
  | [] => []
  | f :: rest => [foldInto f rest]

/-- The part of the parse loop body after the indent handling: skip comment
lines, parse the base-branch line when no instruction was parsed yet,
otherwise parse a nest/merge instruction line and attach the new branch to
the innermost active branch.  Returns the new stack, the new
last_instruction and the cursor at the start of the next line. -/
def parse_line_rest (s : PState) (frames : Frames)
    (last_instruction : Option Str) :
    Except PFail (Frames × Option Str × PState) :=
  match parse_comment_line s with
  | .error e => .error e
  | .ok (some _, s1) =>
    match new_line s1 with
    | .error e => .error e
    | .ok s2 => .ok (frames, last_instruction, s2)
  | .ok (none, s1) =>
    match last_instruction with
    | none =>
      match take_to_whitespace ("branch to start from".toList) s1 with
      | .error e => .error e
      | .ok (url, s2) =>
        match parse_optional_revspec s2 with
        | .error e => .error e
        | .ok (revspec, s3) =>
          match new_line s3 with
          | .error e => .error e
          | .ok s4 =>
            .ok ([(.node none url revspec none [], none)], some [], s4)
    | some _ =>
      match parse_instruction s1 with
      | .error e => .error e
      | .ok (instruction, s2) =>
        match parse_branch_id s2 with
        | .error e => .error e
        | .ok (branch_id, s3) =>
          match parse_branch_url s3 with
          | .error e => .error e
          | .ok (url, s4) =>
            if instruction = "nest".toList then
              match parse_branch_location s4 with
              | .error e => .error e
              | .ok (location, s5) =>
                match parse_optional_revspec s5 with
                | .error e => .error e
                | .ok (revspec, s6) =>
                  match new_line s6 with
                  | .error e => .error e
                  | .ok s7 =>
                    match frames with
                    | [] => .ok ([], some instruction, s7)
                    | (top, tloc) :: rest =>
                      if locUsed top location then
                        .error (.assertionError (location ++
                          " already has branch nested there".toList))
                      else
                        .ok ((addChild top
                            (.node (some branch_id) url revspec none [])
                            (some location), tloc) :: rest,
                          some instruction, s7)
            else
              match parse_optional_revspec s4 with
              | .error e => .error e
              | .ok (revspec, s5) =>
                match new_line s5 with
                | .error e => .error e
                | .ok s6 =>
                  match frames with
                  | [] => .ok ([], some instruction, s6)
                  | (top, tloc) :: rest =>
                    .ok ((addChild top
                        (.node (some branch_id) url revspec none []) none,
                        tloc) :: rest,
                      some instruction, s6)

/-- The while-loop of RecipeParser.parse, by fuel on the number of remaining
iterations (each iteration advances line_index by at least one, so fuel =
number of lines always suffices; the loop exits when line_index has passed
the last line).  Returns the final stack and cursor. -/
def parse_lines : Nat → PState → Frames → Option Str →
    Except PFail (Frames × PState)
  | 0, s, frames, _ => .ok (frames, s)
  | fuel + 1, s, frames, last_instruction =>
    if s.lineIndex ≥ s.lines.length then .ok (frames, s)
    else
      match parse_indent s with
      | .error e => .error e
      | .ok (old_opt, s1) =>
        match old_opt with
        | some old_indent_level =>
          if old_indent_level < s1.currentIndentLevel ∧
              last_instruction ≠ some ("nest".toList) then
            .error (mkErr s1
              ("Not allowed to indent unless after a \x27nest\x27 line".toList))
          else
            let frames1 :=
              if old_indent_level < s1.currentIndentLevel then pushFrame frames
              else popFrames frames (old_indent_level - s1.currentIndentLevel)
            match parse_line_rest s1 frames1 last_instruction with
            | .error e => .error e
            | .ok (frames2, last2, s2) => parse_lines fuel s2 frames2 last2
        | none =>
          match parse_line_rest s1 frames last_instruction with
          | .error e => .error e
          | .ok (frames2, last2, s2) => parse_lines fuel s2 frames2 last2

/-- Python text.split("\n"). -/
def splitNl : Str → List Str
  | [] => [[]]
  | c :: rest =>
    if c = '\n' then [] :: splitNl rest
    else
      match splitNl rest with
      | [] => [[c]]
      | l :: ls => (c :: l) :: ls

/-- RecipeParser.parse: split the text, parse the header, run the line loop
and return the root branch together with the header's deb_version template;
"Empty recipe" when no base-branch line was ever parsed. -/
def parse (text : Str) : Except PFail (RB × Str) :=
  let lines := splitNl text
  let s0 : PState := ⟨"recipe".toList, lines, 0, 0, 0⟩
  match parse_header s0 with
  | .error e => .error e
  | .ok ((_, deb_version), s1) =>
    match parse_lines lines.length s1 [] none with
    | .error e => .error e
    | .ok (frames, send) =>
      match foldFrames frames with
      | [] => .error (mkErr send ("Empty recipe".toList))
      | (root, _) :: _ => .ok (root, deb_version)

/-! ## Manifest serialization (build_manifest, src/recipe.py:324-352) -/

/-- "  " * indent_level. -/
def indentStr (level : Nat) : Str := List.replicate (2 * level) ' '

/-- _add_child_branches_to_manifest: one line per child (nest lines carry
the location, and the nested branch's own children follow at the next
indent level); none models the source's assertion failure when a child has
no revid. -/
def add_child_branches_to_manifest :
    List (RB × Option Str) → Nat → Option Str
  | [], _ => some []
  | (.node nm u _ ri _cs, loc) :: rest, indent_level =>
    match ri with
    | none => none
    | some revid =>
      match loc with
      | some nest_location =>
        match add_child_branches_to_manifest _cs (indent_level + 1) with
        | none => none
        | some sub =>
          match add_child_branches_to_manifest rest indent_level with
          | none => none
          | some more =>
            some (indentStr indent_level ++ "nest ".toList ++ fmtOptStr nm ++
              [' '] ++ u ++ [' '] ++ nest_location ++ " revid:".toList ++
              revid ++ ['\n'] ++ sub ++ more)
      | none =>
        match add_child_branches_to_manifest rest indent_level with
        | none => none
        | some more =>
          some (indentStr indent_level ++ "merge ".toList ++ fmtOptStr nm ++
            [' '] ++ u ++ " revid:".toList ++ revid ++ ['\n'] ++ more)

/-- build_manifest: the header (format 0.1, current deb_version), the base
line with its revid, then the children at indent level 0.  (The source ends
by re-parsing the manifest as a sanity check; theorem c5 below proves that
this re-parse succeeds and reproduces the shape.) -/
def build_manifest (base_branch : RB) (deb_version : Str) : Option Str :=
  match base_branch with
  | .node _ u _ ri cs =>
    match ri with
    | none => none
    | some revid =>
      match add_child_branches_to_manifest cs 0 with
      | none => none
      | some children_part =>
        some ("# bzr-builder format 0.1 deb-version ".toList ++ deb_version ++
          ['\n'] ++ u ++ " revid:".toList ++ revid ++ ['\n'] ++ children_part)


/-- C3 (the code evaluated at the failing input): parse accepts a recipe in
which two instructions both bind the name "foo" and returns a plan whose two
children are both named "foo"; no duplicate-name parse error is raised
(parse_branch_id, src/recipe.py:577, performs no uniqueness check, contrary
to the spec and to the repo's own test_rejects_non_unique_ids). -/
theorem c3_duplicate_names_accepted :
    (parse ("# bzr-builder format 0.1 deb-version 1\nhttp://foo.org/\nmerge foo url\nmerge foo other-url\n".toList)).map
        (fun r => (r.1.url, r.1.children.map (fun p => p.1.name))) =
      .ok ("http://foo.org/".toList,
        [some ("foo".toList), some ("foo".toList)]) := by
  rfl

/-- C9 (the code evaluated at the failing input): inserting a comment line
directly after the header turns a parsing recipe into a parse error:
parse_comment_line (src/recipe.py:765) calls new_line while the comment text
is still unconsumed, so every post-header line whose first non-space
character is \x23 fails with "Expecting the end of the line, got ...", while
the same recipe without the comment parses fine (contradicting the spec and
the repo's own test_skips_comments). -/
theorem c9_comment_line_rejected :
    parse ("# bzr-builder format 0.1 deb-version 1\n# comment\nhttp://foo.org/\n".toList) =
        .error (.parseError ⟨"recipe".toList, 2, 1,
          "Expecting the end of the line, got \x27#\x27".toList⟩) ∧
      parse ("# bzr-builder format 0.1 deb-version 1\nhttp://foo.org/\n".toList) =
        .ok (.node none ("http://foo.org/".toList) none none [],
          "1".toList) := by
  exact ⟨rfl, rfl⟩

/-- C8 counterexample: a header of the form "# bzr-builder format 0.1"
without a deb-version clause does not parse: parse_header
(src/recipe.py:560) unconditionally demands the "deb-version" word, so the
recipe fails at 1:25 instead of producing a root without a version
template. -/
theorem c8_counterexample :
    parse ("# bzr-builder format 0.1\nhttp://foo.org/\n".toList) =
      .error (.parseError ⟨"recipe".toList, 1, 25,
        "End of line while looking for \x27deb-version\x27".toList⟩) := by
  rfl

/-! ## A remainder view of the cursor, for the parser proofs -/

/-- The unconsumed remainder of the current line. -/
def rem (s : PState) : Str := (currentLine s).drop s.index

theorem drop_takeWhile_length (p : Char → Bool) (l : Str) :
    l.drop (l.takeWhile p).length = l.dropWhile p := by
  induction l with
  | nil => rfl
  | cons c t ih =>
    by_cases h : p c
    · simp [List.takeWhile_cons, List.dropWhile_cons, h, ih]
    · simp [List.takeWhile_cons, List.dropWhile_cons, h]

theorem takeWhile_all_append (p : Char → Bool) (xs ys : Str)
    (h : ∀ x ∈ xs, p x = true) :
    List.takeWhile p (xs ++ ys) = xs ++ List.takeWhile p ys := by
  induction xs with
  | nil => simp
  | cons c t ih =>
    have hc := h c (List.mem_cons_self c t)
    simp only [List.cons_append, List.takeWhile_cons, hc, if_true]
    rw [ih (fun x hx => h x (List.mem_cons_of_mem c hx))]

theorem dropWhile_all_append (p : Char → Bool) (xs ys : Str)
    (h : ∀ x ∈ xs, p x = true) :
    List.dropWhile p (xs ++ ys) = List.dropWhile p ys := by
  induction xs with
  | nil => simp
  | cons c t ih =>
    have hc := h c (List.mem_cons_self c t)
    simp only [List.cons_append, List.dropWhile_cons, hc, if_true]
    exact ih (fun x hx => h x (List.mem_cons_of_mem c hx))

theorem currentLine_set_index (s : PState) (k : Nat) :
    currentLine { s with index := k } = currentLine s := rfl

theorem rem_ne_nil_lt (s : PState) (h : rem s ≠ []) :
    s.index < (currentLine s).length := by
  by_contra hlt
  exact h (List.drop_eq_nil_iff.mpr (by omega))

theorem skip_ws_eq (s : PState) :
    skip_ws s = ((rem s).takeWhile isWS,
      { s with index := s.index + ((rem s).takeWhile isWS).length }) := rfl

theorem rem_skip_ws (s : PState) :
    rem (skip_ws s).2 = (rem s).dropWhile isWS := by
  show (currentLine s).drop (s.index + ((rem s).takeWhile isWS).length) =
    (rem s).dropWhile isWS
  rw [← List.drop_drop, ← drop_takeWhile_length isWS (rem s)]
  rfl

theorem get?_eq_head?_drop {α : Type} (l : List α) : ∀ n : Nat,
    l.get? n = (l.drop n).head? := by
  induction l with
  | nil => intro n; cases n <;> rfl
  | cons c t ih =>
    intro n
    cases n with
    | zero => rfl
    | succ k => simpa using ih k

theorem peek_char_head (s : PState) : peek_char s 0 = (rem s).head? := by
  unfold peek_char rem
  rw [Nat.add_zero]
  exact get?_eq_head?_drop (currentLine s) s.index

theorem peek_to_whitespace_nil (s : PState) (h : rem s = []) :
    peek_to_whitespace s = none := by
  have hle : (currentLine s).length ≤ s.index := List.drop_eq_nil_iff.mp h
  unfold peek_to_whitespace
  rw [if_neg (by omega)]

theorem peek_to_whitespace_cons (s : PState) (c : Char) (t : Str)
    (h : rem s = c :: t) :
    peek_to_whitespace s =
      some ((c :: t).takeWhile (fun x => !(isWS x))) := by
  unfold peek_to_whitespace
  rw [if_pos (rem_ne_nil_lt s (by rw [h]; simp))]
  rw [show ((currentLine s).drop s.index = c :: t) from h]

theorem take_chars_spec (pre : Str) : ∀ (s : PState) (t : Str),
    rem s = pre ++ t →
    take_chars s pre.length =
      (some pre, { s with index := s.index + pre.length }) := by
  induction pre with
  | nil =>
    intro s t h
    show take_chars s 0 = _
    rw [take_chars]
    simp
  | cons c p2 ih =>
    intro s t h
    have hlt : s.index < (currentLine s).length :=
      rem_ne_nil_lt s (by rw [h]; simp)
    have htc : take_char s = (some c, { s with index := s.index + 1 }) := by
      unfold take_char
      rw [if_neg (by omega)]
      have : (currentLine s).get? s.index = some c := by
        have hh : (rem s).head? = some c := by rw [h]; rfl
        rw [← peek_char_head s] at hh
        unfold peek_char at hh
        rwa [Nat.add_zero] at hh
      rw [this]
    have hrem2 : rem { s with index := s.index + 1 } = p2 ++ t := by
      show (currentLine s).drop (s.index + 1) = p2 ++ t
      rw [← List.drop_drop]
      rw [show ((currentLine s).drop s.index = c :: (p2 ++ t)) from h]
      simp
    show take_chars s (p2.length + 1) = _
    rw [take_chars, htc]
    dsimp only
    rw [ih { s with index := s.index + 1 } t hrem2]
    have harith : s.index + 1 + p2.length = s.index + (p2.length + 1) := by
      omega
    simp [harith]

theorem take_to_whitespace_spec (lf : Str) (s : PState) (tok t : Str)
    (htok : tok ≠ []) (hclean : ∀ c ∈ tok, isWS c = false)
    (hrem : rem s = tok ++ t)
    (hnext : t = [] ∨ ∃ c t2, t = c :: t2 ∧ isWS c = true) :
    take_to_whitespace lf s =
      .ok (tok, { s with index := s.index + tok.length }) := by
  obtain ⟨c0, tok2, rfl⟩ : ∃ c0 tok2, tok = c0 :: tok2 := by
    cases tok with
    | nil => exact absurd rfl htok
    | cons a b => exact ⟨a, b, rfl⟩
  have hpeek : peek_to_whitespace s = some (c0 :: tok2) := by
    rw [peek_to_whitespace_cons s c0 (tok2 ++ t) (by simpa using hrem)]
    have : List.takeWhile (fun x => !(isWS x)) ((c0 :: tok2) ++ t) =
        (c0 :: tok2) ++ List.takeWhile (fun x => !(isWS x)) t := by
      apply takeWhile_all_append
      intro x hx
      simp [hclean x hx]
    simp only [List.cons_append] at this
    rw [this]
    rcases hnext with rfl | ⟨c, t2, rfl, hc⟩
    · simp
    · simp [List.takeWhile_cons, hc]
  unfold take_to_whitespace
  rw [hpeek]
  dsimp only
  rw [take_chars_spec (c0 :: tok2) s t hrem]

theorem rem_advance (s : PState) (pre t : Str) (h : rem s = pre ++ t) :
    rem { s with index := s.index + pre.length } = t := by
  show (currentLine s).drop (s.index + pre.length) = t
  rw [← List.drop_drop]
  rw [show (currentLine s).drop s.index = pre ++ t from h]
  simp

theorem takeWhile_all (p : Char → Bool) (l : Str) (h : ∀ x ∈ l, p x = true) :
    List.takeWhile p l = l := by
  have := takeWhile_all_append p l [] h
  simpa using this

theorem parse_whitespace_req_spec (lf : Str) (s : PState) (t : Str)
    (hrem : rem s = ' ' :: t)
    (hnext : t = [] ∨ ∃ c t2, t = c :: t2 ∧ isWS c = false) :
    parse_whitespace lf true s =
      .ok ([' '], { s with index := s.index + 1 }) := by
  unfold parse_whitespace
  rw [if_pos rfl]
  rw [peek_char_head, hrem]
  simp only [List.head?_cons]
  rw [if_pos (by decide : isWS ' ' = true)]
  rw [skip_ws_eq, hrem]
  have hw : List.takeWhile isWS (' ' :: t) = [' '] := by
    simp only [List.takeWhile_cons]
    rw [if_pos (by decide)]
    rcases hnext with rfl | ⟨c, t2, rfl, hc⟩
    · rfl
    · simp [List.takeWhile_cons, hc]
  rw [hw]
  rfl

theorem new_line_spec (s : PState) (h : (rem s).dropWhile isWS = []) :
    new_line s = .ok ⟨s.filename, s.lines, s.lineIndex + 1, 0,
      s.currentIndentLevel⟩ := by
  simp only [new_line]
  have h2 : rem (skip_ws s).2 = [] := by rw [rem_skip_ws]; exact h
  rw [peek_to_whitespace_nil _ h2]
  rfl

theorem parse_optional_revspec_spec (s : PState) (tok : Str)
    (htok : tok ≠ []) (hclean : ∀ c ∈ tok, isWS c = false)
    (hrem : rem s = ' ' :: tok) :
    parse_optional_revspec s =
      .ok (some tok, { s with index := s.index + (1 + tok.length) }) := by
  obtain ⟨c0, tok2, rfl⟩ : ∃ c0 tok2, tok = c0 :: tok2 := by
    cases tok with
    | nil => exact absurd rfl htok
    | cons a b => exact ⟨a, b, rfl⟩
  simp only [parse_optional_revspec]
  rw [skip_ws_eq, hrem]
  have hw : List.takeWhile isWS (' ' :: c0 :: tok2) = [' '] := by
    simp only [List.takeWhile_cons]
    rw [if_pos (by decide)]
    simp [hclean c0 (List.mem_cons_self c0 tok2)]
  rw [hw]
  have hrem2 : rem { s with index := s.index + [' '].length } = c0 :: tok2 := by
    exact rem_advance s [' '] (c0 :: tok2) hrem
  simp only [List.length_cons, List.length_nil] at hrem2 ⊢
  rw [peek_to_whitespace_cons _ _ _ hrem2]
  have hall : List.takeWhile (fun x => !(isWS x)) (c0 :: tok2) = c0 :: tok2 :=
    takeWhile_all _ _ (fun x hx => by simp [hclean x hx])
  rw [hall]
  dsimp only
  rw [take_chars_spec (c0 :: tok2) _ [] (by simpa using hrem2)]
  simp [Nat.add_assoc]

theorem parse_instruction_spec (s : PState) (w t : Str)
    (hw : w = "nest".toList ∨ w = "merge".toList)
    (hrem : rem s = w ++ ' ' :: t) :
    parse_instruction s = .ok (w, { s with index := s.index + w.length }) := by
  have hwchars : ∀ c ∈ w, isWS c = false := by
    rcases hw with rfl | rfl <;> decide
  obtain ⟨c0, w2, rfl⟩ : ∃ c0 w2, w = c0 :: w2 := by
    rcases hw with rfl | rfl
    · exact ⟨'n', "est".toList, rfl⟩
    · exact ⟨'m', "erge".toList, rfl⟩
  simp only [parse_instruction]
  rw [peek_to_whitespace_cons _ _ _ (by simpa using hrem)]
  have : List.takeWhile (fun x => !(isWS x)) ((c0 :: w2) ++ ' ' :: t) =
      (c0 :: w2) ++ List.takeWhile (fun x => !(isWS x)) (' ' :: t) := by
    apply takeWhile_all_append
    intro x hx
    simp [hwchars x hx]
  simp only [List.cons_append] at this
  rw [this]
  rw [show List.takeWhile (fun x => !(isWS x)) (' ' :: t) = [] from by
    simp only [List.takeWhile_cons]
    rw [if_neg (by decide)]]
  rw [List.append_nil]
  dsimp only
  rw [if_pos hw]
  rw [take_chars_spec (c0 :: w2) s (' ' :: t) hrem]

theorem parse_branch_id_spec (s : PState) (tok t : Str) (htok : tok ≠ [])
    (hclean : ∀ c ∈ tok, isWS c = false)
    (hrem : rem s = ' ' :: (tok ++ ' ' :: t)) :
    parse_branch_id s =
      .ok (tok, { s with index := s.index + (1 + tok.length) }) := by
  obtain ⟨c0, tok2, rfl⟩ : ∃ c0 tok2, tok = c0 :: tok2 := by
    cases tok with
    | nil => exact absurd rfl htok
    | cons a b => exact ⟨a, b, rfl⟩
  unfold parse_branch_id
  rw [parse_whitespace_req_spec _ s (c0 :: tok2 ++ ' ' :: t) hrem
    (Or.inr ⟨c0, tok2 ++ ' ' :: t, rfl,
      hclean c0 (List.mem_cons_self c0 tok2)⟩)]
  dsimp only
  have hrem2 : rem { s with index := s.index + 1 } =
      (c0 :: tok2) ++ ' ' :: t := by
    have := rem_advance s [' '] ((c0 :: tok2) ++ ' ' :: t) (by simpa using hrem)
    simpa using this
  rw [take_to_whitespace_spec _ _ (c0 :: tok2) (' ' :: t) (by simp)
    hclean hrem2 (Or.inr ⟨' ', t, rfl, by decide⟩)]
  simp [Nat.add_assoc]

theorem parse_branch_url_spec (s : PState) (tok t : Str) (htok : tok ≠ [])
    (hclean : ∀ c ∈ tok, isWS c = false)
    (hrem : rem s = ' ' :: (tok ++ ' ' :: t)) :
    parse_branch_url s =
      .ok (tok, { s with index := s.index + (1 + tok.length) }) := by
  obtain ⟨c0, tok2, rfl⟩ : ∃ c0 tok2, tok = c0 :: tok2 := by
    cases tok with
    | nil => exact absurd rfl htok
    | cons a b => exact ⟨a, b, rfl⟩
  unfold parse_branch_url
  rw [parse_whitespace_req_spec _ s (c0 :: tok2 ++ ' ' :: t) hrem
    (Or.inr ⟨c0, tok2 ++ ' ' :: t, rfl,
      hclean c0 (List.mem_cons_self c0 tok2)⟩)]
  dsimp only
  have hrem2 : rem { s with index := s.index + 1 } =
      (c0 :: tok2) ++ ' ' :: t := by
    have := rem_advance s [' '] ((c0 :: tok2) ++ ' ' :: t) (by simpa using hrem)
    simpa using this
  rw [take_to_whitespace_spec _ _ (c0 :: tok2) (' ' :: t) (by simp)
    hclean hrem2 (Or.inr ⟨' ', t, rfl, by decide⟩)]
  simp [Nat.add_assoc]

theorem parse_branch_location_spec (s : PState) (tok t : Str)
    (htok : tok ≠ []) (hclean : ∀ c ∈ tok, isWS c = false)
    (hrem : rem s = ' ' :: (tok ++ ' ' :: t)) :
    parse_branch_location s =
      .ok (tok, { s with index := s.index + (1 + tok.length) }) := by
  obtain ⟨c0, tok2, rfl⟩ : ∃ c0 tok2, tok = c0 :: tok2 := by
    cases tok with
    | nil => exact absurd rfl htok
    | cons a b => exact ⟨a, b, rfl⟩
  unfold parse_branch_location
  rw [parse_whitespace_req_spec _ s (c0 :: tok2 ++ ' ' :: t) hrem
    (Or.inr ⟨c0, tok2 ++ ' ' :: t, rfl,
      hclean c0 (List.mem_cons_self c0 tok2)⟩)]
  dsimp only
  have hrem2 : rem { s with index := s.index + 1 } =
      (c0 :: tok2) ++ ' ' :: t := by
    have := rem_advance s [' '] ((c0 :: tok2) ++ ' ' :: t) (by simpa using hrem)
    simpa using this
  rw [take_to_whitespace_spec _ _ (c0 :: tok2) (' ' :: t) (by simp)
    hclean hrem2 (Or.inr ⟨' ', t, rfl, by decide⟩)]
  simp [Nat.add_assoc]

theorem parse_comment_line_not (s : PState) (c : Char) (t : Str)
    (hrem : rem s = c :: t) (hc : c ≠ '#') :
    parse_comment_line s = .ok (none, s) := by
  unfold parse_comment_line
  rw [peek_char_head, hrem]
  simp only [List.head?_cons]
  rw [if_pos hc]

theorem parse_indent_same (s : PState)
    (hind : (rem s).takeWhile isWS =
      List.replicate (2 * s.currentIndentLevel) ' ') :
    parse_indent s =
      .ok (none, { s with index := s.index + 2 * s.currentIndentLevel }) := by
  simp only [parse_indent, skip_ws_eq, hind]
  rw [if_neg (by simp [List.mem_replicate])]
  rw [if_neg (by simp [Nat.mul_mod_right])]
  simp only [List.length_replicate]
  rw [show 2 * s.currentIndentLevel / 2 = s.currentIndentLevel from by omega]
  rw [if_neg (by simp)]

theorem parse_indent_change (s : PState) (lvl2 : Nat)
    (hind : (rem s).takeWhile isWS = List.replicate (2 * lvl2) ' ')
    (hne : lvl2 ≠ s.currentIndentLevel)
    (hle : lvl2 ≤ s.currentIndentLevel + 1) :
    parse_indent s = .ok (some s.currentIndentLevel,
      { s with index := s.index + 2 * lvl2, currentIndentLevel := lvl2 }) := by
  simp only [parse_indent, skip_ws_eq, hind]
  rw [if_neg (by simp [List.mem_replicate])]
  rw [if_neg (by simp [Nat.mul_mod_right])]
  simp only [List.length_replicate]
  rw [show 2 * lvl2 / 2 = lvl2 from by omega]
  rw [if_pos hne]
  rw [if_neg (by omega)]

/-- C4: in any state of the parse loop where the current line is indented
exactly one level deeper than the current level (two more spaces, no tabs)
and the previous instruction was not "nest", the loop fails with "Not
allowed to indent unless after a \x27nest\x27 line" positioned just after
the indent, regardless of the rest of the line's content, of the branch
stack and of the remaining fuel. -/
theorem c4_indent_after_non_nest (fuel : Nat) (s : PState) (frames : Frames)
    (last_instruction : Option Str) (lvl : Nat)
    (hline : s.lineIndex < s.lines.length)
    (hcur : s.currentIndentLevel = lvl)
    (hindent : (rem s).takeWhile isWS = List.replicate (2 * (lvl + 1)) ' ')
    (hlast : last_instruction ≠ some ("nest".toList)) :
    parse_lines (fuel + 1) s frames last_instruction =
      .error (.parseError ⟨s.filename, s.lineIndex + 1,
        s.index + 2 * (lvl + 1) + 1,
        "Not allowed to indent unless after a \x27nest\x27 line".toList⟩) := by
  rw [parse_lines]
  rw [if_neg (by omega)]
  rw [parse_indent_change s (lvl + 1) hindent (by omega) (by omega)]
  dsimp only
  rw [if_pos ⟨by simp [hcur], hlast⟩]
  rfl

theorem c4_witness :
    parse_lines 1 ⟨"recipe".toList, ["  merge a b".toList], 0, 0, 0⟩ []
        (some []) =
      .error (.parseError ⟨"recipe".toList, 1, 3,
        "Not allowed to indent unless after a \x27nest\x27 line".toList⟩) := by
  have h := c4_indent_after_non_nest 0
    ⟨"recipe".toList, ["  merge a b".toList], 0, 0, 0⟩ [] (some []) 0
    (by decide) rfl (by decide) (by decide)
  simpa using h

theorem parse_whitespace_true_state (lf : Str) (s : PState) (r : Str)
    (s2 : PState) (h : parse_whitespace lf true s = .ok (r, s2)) :
    s2 = (skip_ws s).2 := by
  unfold parse_whitespace at h
  rw [if_pos rfl] at h
  cases hpk : peek_char s 0 with
  | none => rw [hpk] at h; exact absurd h (by simp)
  | some c =>
    rw [hpk] at h
    dsimp only at h
    by_cases hws : isWS c = true
    · rw [if_pos hws] at h
      simp only [Except.ok.injEq] at h
      rw [h]
    · rw [if_neg hws] at h
      exact absurd h (by simp)

theorem dropWhile_head_false (p : Char → Bool) (l : Str) (c : Char)
    (h : (l.dropWhile p).head? = some c) : p c = false := by
  induction l with
  | nil => simp at h
  | cons a t ih =>
    by_cases ha : p a = true
    · rw [List.dropWhile_cons, if_pos ha] at h
      exact ih h
    · rw [List.dropWhile_cons, if_neg ha] at h
      simp only [List.head?_cons, Option.some.injEq] at h
      rw [← h]
      exact Bool.not_eq_true _ ▸ (by simpa using ha)

theorem take_to_whitespace_ok_ne_nil (lf : Str) (s : PState)
    (hhead : ∀ c, (rem s).head? = some c → isWS c = false)
    (text : Str) (s3 : PState)
    (h : take_to_whitespace lf s = .ok (text, s3)) : text ≠ [] := by
  unfold take_to_whitespace at h
  cases hrem : rem s with
  | nil =>
    rw [peek_to_whitespace_nil s hrem] at h
    exact absurd h (by simp)
  | cons c t =>
    rw [peek_to_whitespace_cons s c t hrem] at h
    dsimp only at h
    have hc : isWS c = false := hhead c (by rw [hrem]; rfl)
    rw [List.takeWhile_cons] at h
    rw [if_pos (by simp [hc])] at h
    simp only [Except.ok.injEq, Prod.mk.injEq] at h
    rw [← h.1]
    simp

theorem parse_header_deb_version_ne_nil (s : PState) (v d : Str)
    (s2 : PState) (h : parse_header s = .ok ((v, d), s2)) : d ≠ [] := by
  unfold parse_header at h
  split at h
  · exact absurd h (by simp)
  · rename_i s1 hc
    split at h
    · exact absurd h (by simp)
    · rename_i s1b hw1
      split at h
      · exact absurd h (by simp)
      · rename_i s1c hw2
        split at h
        · exact absurd h (by simp)
        · rename_i ver s4 hf
          split at h
          · exact absurd h (by simp)
          · rename_i s5 hw3
            split at h
            · exact absurd h (by simp)
            · rename_i r6 s6 hw6
              split at h
              · exact absurd h (by simp)
              · rename_i dv s7 htt
                split at h
                · exact absurd h (by simp)
                · rename_i s8 hnl
                  simp only [Except.ok.injEq, Prod.mk.injEq] at h
                  have hd : d = dv := by
                    have := h.1.2
                    exact this.symm
                  rw [hd]
                  have hs6 : s6 = (skip_ws s5).2 :=
                    parse_whitespace_true_state _ s5 r6 s6 hw6
                  apply take_to_whitespace_ok_ne_nil _ s6 _ dv s7 htt
                  intro c hc2
                  apply dropWhile_head_false isWS ((rem s5))
                  rw [← rem_skip_ws s5, ← hs6]
                  exact hc2

/-- C8 (amended): the header's deb-version clause is mandatory, not
optional: every successfully parsed recipe carries a nonempty deb_version
template (and, per the counterexample, a header lacking the clause is a
parse error), so presence of a root version template is unconditional. -/
theorem c8_amended_root_always_has_template (text : Str) (b : RB) (d : Str)
    (h : parse text = .ok (b, d)) : d ≠ [] := by
  simp only [parse] at h
  split at h
  · exact absurd h (by simp)
  · rename_i v0 d0 s1 hh
    split at h
    · exact absurd h (by simp)
    · rename_i frames send hloop
      split at h
      · exact absurd h (by simp)
      · rename_i root rloc hfold
        simp only [Except.ok.injEq, Prod.mk.injEq] at h
        rw [← h.2]
        exact parse_header_deb_version_ne_nil _ v0 d0 s1 hh

theorem c8_amended_witness :
    parse ("# bzr-builder format 0.1 deb-version 1\nu\n".toList) =
        .ok (.node none ['u'] none none [], ['1']) ∧
      (['1'] : Str) ≠ [] :=
  ⟨rfl, c8_amended_root_always_has_template
    ("# bzr-builder format 0.1 deb-version 1\nu\n".toList)
    (.node none ['u'] none none []) ['1'] rfl⟩

/-! ## Round-trip infrastructure (C5) -/

theorem rem_index_congr (s : PState) (a b : Nat) (h : a = b) :
    rem { s with index := a } = rem { s with index := b } := by rw [h]

theorem currentLine_of_drop (s : PState) (l : Str) (restl : List Str)
    (h : s.lines.drop s.lineIndex = l :: restl) : currentLine s = l := by
  unfold currentLine
  rw [List.getD_eq_getD_get?, get?_eq_head?_drop, h]
  rfl

theorem parse_line_rest_base (s : PState) (u rv : Str)
    (hu : u ≠ []) (huc : ∀ c ∈ u, isWS c = false)
    (hh : u.head? ≠ some '#')
    (hrv : rv ≠ []) (hrvc : ∀ c ∈ rv, isWS c = false)
    (hrem : rem s = u ++ ' ' :: rv) (frames : Frames) :
    parse_line_rest s frames none =
      .ok ([(.node none u (some rv) none [], none)], some [],
        ⟨s.filename, s.lines, s.lineIndex + 1, 0,
          s.currentIndentLevel⟩) := by
  obtain ⟨u0, u2, rfl⟩ : ∃ u0 u2, u = u0 :: u2 := by
    cases u with
    | nil => exact absurd rfl hu
    | cons a b => exact ⟨a, b, rfl⟩
  have hu0 : u0 ≠ '#' := by
    intro hcc
    apply hh
    rw [hcc]
    rfl
  unfold parse_line_rest
  rw [parse_comment_line_not s u0 (u2 ++ ' ' :: rv) (by simpa using hrem) hu0]
  dsimp only
  rw [take_to_whitespace_spec _ s (u0 :: u2) (' ' :: rv) (by simp) huc hrem
    (Or.inr ⟨' ', rv, rfl, by decide⟩)]
  dsimp only
  have hrem2 : rem { s with index := s.index + (u0 :: u2).length } =
      ' ' :: rv := rem_advance s (u0 :: u2) (' ' :: rv) hrem
  rw [parse_optional_revspec_spec _ rv hrv hrvc hrem2]
  dsimp only
  have hrem3 : rem { s with index :=
      s.index + (u0 :: u2).length + (1 + rv.length) } = [] := by
    have h0 : rem { s with index := s.index + (u0 :: u2).length } =
        (' ' :: rv) ++ [] := by rw [hrem2]; simp
    have := rem_advance { s with index := s.index + (u0 :: u2).length }
      (' ' :: rv) [] h0
    rw [show s.index + (u0 :: u2).length + (1 + rv.length) =
      s.index + (u0 :: u2).length + (' ' :: rv).length from by simp; omega]
    exact this
  rw [new_line_spec _ (by rw [hrem3]; rfl)]

theorem parse_line_rest_merge (s : PState) (top : RB) (tl : Option Str)
    (restf : Frames) (li : Str) (nm u rv : Str)
    (hnm : nm ≠ []) (hnmc : ∀ c ∈ nm, isWS c = false)
    (hu : u ≠ []) (huc : ∀ c ∈ u, isWS c = false)
    (hrv : rv ≠ []) (hrvc : ∀ c ∈ rv, isWS c = false)
    (hrem : rem s = "merge".toList ++ ' ' :: (nm ++ ' ' :: (u ++ ' ' :: rv))) :
    parse_line_rest s ((top, tl) :: restf) (some li) =
      .ok ((addChild top (.node (some nm) u (some rv) none []) none, tl)
          :: restf, some ("merge".toList),
        ⟨s.filename, s.lines, s.lineIndex + 1, 0,
          s.currentIndentLevel⟩) := by
  unfold parse_line_rest
  rw [parse_comment_line_not s 'm'
    ("erge".toList ++ ' ' :: (nm ++ ' ' :: (u ++ ' ' :: rv)))
    (by simpa using hrem) (by decide)]
  dsimp only
  rw [parse_instruction_spec s ("merge".toList)
    (nm ++ ' ' :: (u ++ ' ' :: rv)) (Or.inr rfl) hrem]
  dsimp only
  have hrem2 : rem { s with index := s.index + ("merge".toList).length } =
      ' ' :: (nm ++ ' ' :: (u ++ ' ' :: rv)) :=
    rem_advance s ("merge".toList) _ hrem
  rw [parse_branch_id_spec _ nm (u ++ ' ' :: rv) hnm hnmc hrem2]
  dsimp only
  have hrem3 : rem { s with index :=
      s.index + ("merge".toList).length + (1 + nm.length) } =
      ' ' :: (u ++ ' ' :: rv) := by
    have h0 : rem { s with index := s.index + ("merge".toList).length } =
        (' ' :: nm) ++ (' ' :: (u ++ ' ' :: rv)) := by rw [hrem2]; simp
    have := rem_advance _ (' ' :: nm) _ h0
    rw [rem_index_congr _ _ (s.index + ("merge".toList).length +
      (' ' :: nm).length) (by simp; omega)]
    exact this
  rw [parse_branch_url_spec _ u rv hu huc hrem3]
  dsimp only
  rw [if_neg (by decide : ¬ ("merge".toList = "nest".toList))]
  have hrem4 : rem { s with index :=
      s.index + ("merge".toList).length + (1 + nm.length) + (1 + u.length) } =
      ' ' :: rv := by
    have h0 : rem { s with index :=
        s.index + ("merge".toList).length + (1 + nm.length) } =
        (' ' :: u) ++ (' ' :: rv) := by rw [hrem3]; simp
    have := rem_advance _ (' ' :: u) _ h0
    rw [rem_index_congr _ _ (s.index + ("merge".toList).length +
      (1 + nm.length) + (' ' :: u).length) (by simp; omega)]
    exact this
  rw [parse_optional_revspec_spec _ rv hrv hrvc hrem4]
  dsimp only
  have hrem5 : rem { s with index :=
      s.index + ("merge".toList).length + (1 + nm.length) + (1 + u.length) +
        (1 + rv.length) } = [] := by
    have h0 : rem { s with index :=
        s.index + ("merge".toList).length + (1 + nm.length) +
          (1 + u.length) } = (' ' :: rv) ++ [] := by rw [hrem4]; simp
    have := rem_advance _ (' ' :: rv) _ h0
    rw [rem_index_congr _ _ (s.index + ("merge".toList).length +
      (1 + nm.length) + (1 + u.length) + (' ' :: rv).length)
      (by simp; omega)]
    exact this
  rw [new_line_spec _ (by rw [hrem5]; rfl)]

theorem parse_line_rest_nest (s : PState) (top : RB) (tl : Option Str)
    (restf : Frames) (li : Str) (nm u lc rv : Str)
    (hnm : nm ≠ []) (hnmc : ∀ c ∈ nm, isWS c = false)
    (hu : u ≠ []) (huc : ∀ c ∈ u, isWS c = false)
    (hlc : lc ≠ []) (hlcc : ∀ c ∈ lc, isWS c = false)
    (hrv : rv ≠ []) (hrvc : ∀ c ∈ rv, isWS c = false)
    (hused : locUsed top lc = false)
    (hrem : rem s = "nest".toList ++
      ' ' :: (nm ++ ' ' :: (u ++ ' ' :: (lc ++ ' ' :: rv)))) :
    parse_line_rest s ((top, tl) :: restf) (some li) =
      .ok ((addChild top (.node (some nm) u (some rv) none []) (some lc), tl)
          :: restf, some ("nest".toList),
        ⟨s.filename, s.lines, s.lineIndex + 1, 0,
          s.currentIndentLevel⟩) := by
  unfold parse_line_rest
  rw [parse_comment_line_not s 'n'
    ("est".toList ++ ' ' :: (nm ++ ' ' :: (u ++ ' ' :: (lc ++ ' ' :: rv))))
    (by simpa using hrem) (by decide)]
  dsimp only
  rw [parse_instruction_spec s ("nest".toList)
    (nm ++ ' ' :: (u ++ ' ' :: (lc ++ ' ' :: rv))) (Or.inl rfl) hrem]
  dsimp only
  have hrem2 : rem { s with index := s.index + ("nest".toList).length } =
      ' ' :: (nm ++ ' ' :: (u ++ ' ' :: (lc ++ ' ' :: rv))) :=
    rem_advance s ("nest".toList) _ hrem
  rw [parse_branch_id_spec _ nm (u ++ ' ' :: (lc ++ ' ' :: rv)) hnm hnmc hrem2]
  dsimp only
  have hrem3 : rem { s with index :=
      s.index + ("nest".toList).length + (1 + nm.length) } =
      ' ' :: (u ++ ' ' :: (lc ++ ' ' :: rv)) := by
    have h0 : rem { s with index := s.index + ("nest".toList).length } =
        (' ' :: nm) ++ (' ' :: (u ++ ' ' :: (lc ++ ' ' :: rv))) := by
      rw [hrem2]; simp
    have := rem_advance _ (' ' :: nm) _ h0
    rw [rem_index_congr _ _ (s.index + ("nest".toList).length +
      (' ' :: nm).length) (by simp; omega)]
    exact this
  rw [parse_branch_url_spec _ u (lc ++ ' ' :: rv) hu huc hrem3]
  dsimp only
  rw [if_pos (rfl : "nest".toList = "nest".toList)]
  have hrem4 : rem { s with index :=
      s.index + ("nest".toList).length + (1 + nm.length) + (1 + u.length) } =
      ' ' :: (lc ++ ' ' :: rv) := by
    have h0 : rem { s with index :=
        s.index + ("nest".toList).length + (1 + nm.length) } =
        (' ' :: u) ++ (' ' :: (lc ++ ' ' :: rv)) := by rw [hrem3]; simp
    have := rem_advance _ (' ' :: u) _ h0
    rw [rem_index_congr _ _ (s.index + ("nest".toList).length +
      (1 + nm.length) + (' ' :: u).length) (by simp; omega)]
    exact this
  rw [parse_branch_location_spec _ lc rv hlc hlcc hrem4]
  dsimp only
  have hrem5 : rem { s with index :=
      s.index + ("nest".toList).length + (1 + nm.length) + (1 + u.length) +
        (1 + lc.length) } = ' ' :: rv := by
    have h0 : rem { s with index :=
        s.index + ("nest".toList).length + (1 + nm.length) +
          (1 + u.length) } = (' ' :: lc) ++ (' ' :: rv) := by
      rw [hrem4]; simp
    have := rem_advance _ (' ' :: lc) _ h0
    rw [rem_index_congr _ _ (s.index + ("nest".toList).length +
      (1 + nm.length) + (1 + u.length) + (' ' :: lc).length)
      (by simp; omega)]
    exact this
  rw [parse_optional_revspec_spec _ rv hrv hrvc hrem5]
  dsimp only
  have hrem6 : rem { s with index :=
      s.index + ("nest".toList).length + (1 + nm.length) + (1 + u.length) +
        (1 + lc.length) + (1 + rv.length) } = [] := by
    have h0 : rem { s with index :=
        s.index + ("nest".toList).length + (1 + nm.length) + (1 + u.length) +
          (1 + lc.length) } = (' ' :: rv) ++ [] := by rw [hrem5]; simp
    have := rem_advance _ (' ' :: rv) _ h0
    rw [rem_index_congr _ _ (s.index + ("nest".toList).length +
      (1 + nm.length) + (1 + u.length) + (1 + lc.length) +
      (' ' :: rv).length) (by simp; omega)]
    exact this
  rw [new_line_spec _ (by rw [hrem6]; rfl)]
  dsimp only
  rw [if_neg (by rw [hused]; simp)]

theorem parse_line_rest_blank (s : PState) (frames : Frames)
    (lastI : Option Str) (hrem : rem s = []) :
    parse_line_rest s frames lastI =
      .ok (frames, lastI, ⟨s.filename, s.lines, s.lineIndex + 1, 0,
        s.currentIndentLevel⟩) := by
  have hpk : peek_char s 0 = none := by rw [peek_char_head, hrem]; rfl
  unfold parse_line_rest parse_comment_line
  rw [hpk]
  dsimp only
  rw [new_line_spec s (by rw [hrem]; rfl)]

/-- A legal manifest token: nonempty, no whitespace, no newline. -/
def goodTokB (tok : Str) : Bool :=
  !tok.isEmpty && tok.all (fun c => !(isWS c) && c ≠ '\n')

/-- Well-formedness of a fully resolved child list, as the parser and the
resolution engine produce it: every child has a (some) nonempty clean name,
a nonempty clean url and a (some) nonempty clean revid; nest children carry
a nonempty clean location distinct from every later sibling's location and
have well-formed children of their own; merge children are childless. -/
def wfChildren : List (RB × Option Str) → Bool
  | [] => true
  | (.node nm u _ ri cs, loc) :: rest =>
    (match nm with | some n => goodTokB n | none => false) &&
    goodTokB u &&
    (match ri with | some r => goodTokB r | none => false) &&
    (match loc with
     | some l => goodTokB l && !((rest.map Prod.snd).contains (some l)) &&
         wfChildren cs
     | none => cs.isEmpty) &&
    wfChildren rest

/-- A fully resolved plan ready for build_manifest: root name None, clean
nonempty url not starting with \x23, revid present, clean nonempty
deb_version, well-formed children. -/
def manifest_ready (b : RB) (d : Str) : Bool :=
  match b with
  | .node nm u _ ri cs =>
    (match nm with | none => true | some _ => false) &&
    goodTokB u && (u.head? != some '#') && goodTokB d &&
    (match ri with | some r => goodTokB r | none => false) &&
    wfChildren cs

/-- The manifest lines of a child list (what splitting
add_child_branches_to_manifest's output on newlines yields). -/
def child_lines : List (RB × Option Str) → Nat → List Str
  | [], _ => []
  | (.node nm u _ ri cs, loc) :: rest, lvl =>
    match loc with
    | some l =>
      (indentStr lvl ++ "nest ".toList ++ fmtOptStr nm ++ [' '] ++ u ++
        [' '] ++ l ++ " revid:".toList ++
        (match ri with | some r => r | none => [])) ::
      (child_lines cs (lvl + 1) ++ child_lines rest lvl)
    | none =>
      (indentStr lvl ++ "merge ".toList ++ fmtOptStr nm ++ [' '] ++ u ++
        " revid:".toList ++
        (match ri with | some r => r | none => [])) ::
      child_lines rest lvl

/-- Join lines with a newline after each. -/
def joinNl : List Str → Str
  | [] => []
  | l :: rest => l ++ '\n' :: joinNl rest

/-- The re-parsed form of a child list: names survive, the revspec becomes
the manifest's "revid:<revid>" token, the revid is unset, and a merge
child's children are dropped (build_manifest does not recurse into them). -/
def parsedChildren : List (RB × Option Str) → List (RB × Option Str)
  | [] => []
  | (.node nm _u _ ri cs, loc) :: rest =>
    (.node (some (fmtOptStr nm)) _u
      (some ("revid:".toList ++ (match ri with | some r => r | none => [])))
      none
      (match loc with | some _ => parsedChildren cs | none => []), loc) ::
    parsedChildren rest

/-- Append a list of children to a branch. -/
def addChildren (b : RB) (newcs : List (RB × Option Str)) : RB :=
  match b with
  | .node n u rs ri cs => .node n u rs ri (cs ++ newcs)

theorem joinNl_append (xs ys : List Str) :
    joinNl (xs ++ ys) = joinNl xs ++ joinNl ys := by
  induction xs with
  | nil => simp [joinNl]
  | cons l rest ih => simp [joinNl, ih]

theorem splitNl_line (l : Str) : ∀ (rest : Str), '\n' ∉ l →
    splitNl (l ++ '\n' :: rest) = l :: splitNl rest := by
  induction l with
  | nil =>
    intro rest _
    simp [splitNl]
  | cons c t ih =>
    intro rest hnl
    have hc : c ≠ '\n' := fun h => hnl (h ▸ List.mem_cons_self c t)
    have ht : '\n' ∉ t := fun h => hnl (List.mem_cons_of_mem c h)
    simp only [List.cons_append, splitNl]
    rw [if_neg hc]
    rw [show splitNl (t.append ('\n' :: rest)) = t :: splitNl rest from
      ih rest ht]

theorem splitNl_joinNl (ls : List Str) (h : ∀ l ∈ ls, '\n' ∉ l) :
    splitNl (joinNl ls) = ls ++ [[]] := by
  induction ls with
  | nil => rfl
  | cons l rest ih =>
    simp only [joinNl]
    rw [splitNl_line l (joinNl rest) (h l (List.mem_cons_self l rest))]
    rw [ih (fun x hx => h x (List.mem_cons_of_mem l hx))]
    rfl

theorem pushFrame_addChild (F : RB) (fl : Option Str) (c0 : RB)
    (cloc : Option Str) (base : Frames) :
    pushFrame ((addChild F c0 cloc, fl) :: base) =
      (c0, cloc) :: (F, fl) :: base := by
  cases F with
  | node n u rs ri cs =>
    simp [pushFrame, addChild, List.getLast?_concat, List.dropLast_concat]

theorem popFrames_succ_outer (k : Nat) : ∀ (fs : Frames),
    popFrames fs (k + 1) = popFrame (popFrames fs k) := by
  induction k with
  | zero => intro fs; rfl
  | succ k ih =>
    intro fs
    show popFrames (popFrame fs) (k + 1) = _
    rw [ih (popFrame fs)]
    rfl

theorem addChildren_nil (b : RB) : addChildren b [] = b := by
  cases b with
  | node n u rs ri cs => simp [addChildren]

theorem addChildren_addChild (b : RB) (x : RB) (l : Option Str)
    (ys : List (RB × Option Str)) :
    addChildren (addChild b x l) ys = addChildren b ((x, l) :: ys) := by
  cases b with
  | node n u rs ri cs => simp [addChildren, addChild]

theorem goodTokB_parts (tok : Str) (h : goodTokB tok = true) :
    tok ≠ [] ∧ ∀ c ∈ tok, isWS c = false ∧ c ≠ '\n' := by
  unfold goodTokB at h
  simp only [Bool.and_eq_true, List.all_eq_true, Bool.not_eq_true'] at h
  constructor
  · intro hnil
    rw [hnil] at h
    simp at h
  · intro c hc
    have := h.2 c hc
    simp only [Bool.and_eq_true, Bool.not_eq_true'] at this
    exact ⟨this.1, by simpa using this.2⟩

theorem drop_cons_succ {α : Type} (l : List α) (i : Nat) (x : α)
    (xs : List α) (h : l.drop i = x :: xs) : l.drop (i + 1) = xs := by
  have : l.drop (i + 1) = (l.drop i).drop 1 := by
    rw [List.drop_drop]
  rw [this, h]
  simp

theorem lineIndex_lt_of_drop (s : PState) (x : Str) (xs : List Str)
    (h : s.lines.drop s.lineIndex = x :: xs) :
    s.lineIndex < s.lines.length := by
  by_contra hlt
  rw [List.drop_eq_nil_iff.mpr (by omega)] at h
  exact List.noConfusion h

theorem loop_step_at_level (fuel : Nat) (s : PState) (stack : Frames)
    (lastI : Option Str) (lvl : Nat) (body : Str) (restl : List Str)
    (Fa : RB) (fla : Option Str) (base2 : Frames)
    (hidx : s.index = 0)
    (hlines : s.lines.drop s.lineIndex = (indentStr lvl ++ body) :: restl)
    (hbody : ∃ c bt, body = c :: bt ∧ isWS c = false)
    (hmode :
      (∃ deep F2, stack = deep ++ (F2, fla) :: base2 ∧
          s.currentIndentLevel = lvl + deep.length ∧
          popFrames stack deep.length = (Fa, fla) :: base2) ∨
        (lvl = s.currentIndentLevel + 1 ∧ lastI = some ("nest".toList) ∧
          ∃ G gl base3, stack = (addChild G Fa fla, gl) :: base3 ∧
            base2 = (G, gl) :: base3)) :
    parse_lines (fuel + 1) s stack lastI =
      match parse_line_rest ⟨s.filename, s.lines, s.lineIndex, 2 * lvl, lvl⟩
          ((Fa, fla) :: base2) lastI with
      | .error e => .error e
      | .ok (frames2, last2, s2) => parse_lines fuel s2 frames2 last2 := by
  obtain ⟨c0, bt, rfl, hc0⟩ := hbody
  obtain ⟨fn, lines, li, idx, cil⟩ := s
  simp only at hidx
  subst hidx
  have hlt : li < lines.length :=
    lineIndex_lt_of_drop ⟨fn, lines, li, 0, cil⟩ _ _ hlines
  have hcl : currentLine ⟨fn, lines, li, 0, cil⟩ =
      indentStr lvl ++ c0 :: bt :=
    currentLine_of_drop _ _ _ hlines
  have hrem : rem ⟨fn, lines, li, 0, cil⟩ = indentStr lvl ++ c0 :: bt := by
    show (currentLine ⟨fn, lines, li, 0, cil⟩).drop 0 = _
    rw [hcl]
    rfl
  have hind : ∀ (sx : PState), rem sx = indentStr lvl ++ c0 :: bt →
      (rem sx).takeWhile isWS = List.replicate (2 * lvl) ' ' := by
    intro sx hx
    rw [hx]
    rw [show indentStr lvl = List.replicate (2 * lvl) ' ' from rfl]
    rw [takeWhile_all_append isWS _ _ (by
      intro x hx2
      rw [List.eq_of_mem_replicate hx2]
      decide)]
    rw [List.takeWhile_cons, if_neg (by simp [hc0])]
    simp
  rw [parse_lines]
  rw [if_neg (by simp only; omega)]
  rcases hmode with ⟨deep, F2, hstack, hcur, hpops⟩ |
    ⟨hlvl, hnest, G, gl, base3, hstack, hbase2⟩
  · cases deep with
    | nil =>
      simp only [List.length_nil, Nat.add_zero] at hcur
      subst hcur
      have hFa : stack = (Fa, fla) :: base2 := by
        simpa [popFrames] using hpops
      subst hFa
      rw [parse_indent_same _ (hind _ hrem)]
      dsimp only
      rw [Nat.zero_add]
    | cons d deep2 =>
      simp only [List.length_cons] at hcur
      subst hcur
      rw [parse_indent_change _ lvl (hind _ hrem)
        (show lvl ≠ lvl + (deep2.length + 1) from by omega)
        (show lvl ≤ lvl + (deep2.length + 1) + 1 from by omega)]
      dsimp only
      rw [if_neg (by
        rintro ⟨h1, _⟩
        have h2 : lvl + (deep2.length + 1) < lvl := h1
        omega)]
      rw [if_neg (by
        intro h1
        have h2 : lvl + (deep2.length + 1) < lvl := h1
        omega)]
      rw [show lvl + (deep2.length + 1) - lvl = (d :: deep2).length from by
        simp]
      rw [hpops]
      rw [Nat.zero_add]
  · subst hlvl
    subst hnest
    rw [parse_indent_change _ (cil + 1) (hind _ hrem)
      (show cil + 1 ≠ cil from by omega)
      (show cil + 1 ≤ cil + 1 from by omega)]
    dsimp only
    rw [if_neg (by rintro ⟨_, hne⟩; exact hne rfl)]
    rw [if_pos (show cil < cil + 1 from by omega)]
    rw [hstack, pushFrame_addChild, ← hbase2]
    rw [Nat.zero_add]

theorem wfChildren_parts (nm : Option Str) (u : Str) (rs ri : Option Str)
    (kids : List (RB × Option Str)) (loc : Option Str)
    (rest : List (RB × Option Str))
    (h : wfChildren ((.node nm u rs ri kids, loc) :: rest) = true) :
    (∃ n, nm = some n ∧ goodTokB n = true) ∧ goodTokB u = true ∧
    (∃ r, ri = some r ∧ goodTokB r = true) ∧
    ((∃ l, loc = some l ∧ goodTokB l = true ∧
        ((rest.map Prod.snd).contains (some l)) = false ∧
        wfChildren kids = true) ∨ (loc = none ∧ kids = [])) ∧
    wfChildren rest = true := by
  unfold wfChildren at h
  simp only [Bool.and_eq_true] at h
  obtain ⟨⟨⟨⟨hnm, hu⟩, hri⟩, hloc⟩, hrest⟩ := h
  refine ⟨?_, hu, ?_, ?_, hrest⟩
  · cases nm with
    | none => simp at hnm
    | some n => exact ⟨n, rfl, hnm⟩
  · cases ri with
    | none => simp at hri
    | some r => exact ⟨r, rfl, hri⟩
  · cases loc with
    | none =>
      right
      refine ⟨rfl, ?_⟩
      simpa using hloc
    | some l =>
      left
      simp only [Bool.and_eq_true] at hloc
      exact ⟨l, rfl, hloc.1.1, by simpa using hloc.1.2, hloc.2⟩

theorem contains_addChild (Fa : RB) (child : RB) (cl : Option Str) (l : Str) :
    (((addChild Fa child cl).children.map Prod.snd).contains (some l)) =
      ((((Fa.children.map Prod.snd).contains (some l))) ||
        (cl == some l)) := by
  cases Fa with
  | node n u rs ri cs =>
    simp only [addChild, RB.children, List.map_append, List.map_cons,
      List.map_nil]
    by_cases hcl : cl = some l
    · subst hcl
      simp
    · have h1 : (cl == some l) = false := by simp [hcl]
      have h2 : (some l ∈ List.map Prod.snd cs ++ [cl]) ↔
          some l ∈ List.map Prod.snd cs := by
        rw [List.mem_append, List.mem_singleton]
        constructor
        · rintro (h | h)
          · exact h
          · exact absurd h.symm hcl
        · exact Or.inl
      simp [h1, h2]

theorem merge_line_shape (lvl : Nat) (nm2 u r : Str) :
    indentStr lvl ++ "merge ".toList ++ nm2 ++ [' '] ++ u ++
        " revid:".toList ++ r =
      indentStr lvl ++ ("merge".toList ++ ' ' :: (nm2 ++ ' ' ::
        (u ++ ' ' :: ("revid:".toList ++ r)))) := by
  simp only [List.append_assoc]
  rfl

theorem nest_line_shape (lvl : Nat) (nm2 u lc r : Str) :
    indentStr lvl ++ "nest ".toList ++ nm2 ++ [' '] ++ u ++ [' '] ++ lc ++
        " revid:".toList ++ r =
      indentStr lvl ++ ("nest".toList ++ ' ' :: (nm2 ++ ' ' ::
        (u ++ ' ' :: (lc ++ ' ' :: ("revid:".toList ++ r))))) := by
  simp only [List.append_assoc]
  rfl

theorem revid_tok_good (r : Str) (hr : goodTokB r = true) :
    ("revid:".toList ++ r) ≠ [] ∧
      ∀ c ∈ "revid:".toList ++ r, isWS c = false := by
  constructor
  · simp
  · intro c hc
    rcases List.mem_append.mp hc with h | h
    · have h2 : c ∈ ('r' :: 'e' :: 'v' :: 'i' :: 'd' :: ':' :: []) := h
      fin_cases h2 <;> decide
    · exact ((goodTokB_parts r hr).2 c h).1

/-! ## C5: the round-trip law (build_manifest then parse) -/

/-- The number of manifest lines a child list produces: one per child, plus
the lines of a nest child's own children. -/
def planSize : List (RB × Option Str) → Nat
  | [] => 0
  | (.node _ _ _ _ kids, loc) :: rest =>
    1 + (match loc with | some _ => planSize kids | none => 0) + planSize rest

/-- How the active-branch stack, together with the cursor's indent level and
the last instruction, represents "the accumulated branch Fa (to be attached
by fla) at nesting level lvl above the frames base2": either Fa is
recoverable by popping the frames above base2 (the cursor possibly several
levels deeper than lvl), or the previous line was a nest line one level up
and Fa is still the last child of the frame below, from which the next
deeper line will split it off (pushFrame). -/
def encodes (stack : Frames) (cil lvl : Nat) (lastI : Option Str)
    (Fa : RB) (fla : Option Str) (base2 : Frames) : Prop :=
  (∃ deep F2, stack = deep ++ (F2, fla) :: base2 ∧
      cil = lvl + deep.length ∧
      popFrames stack deep.length = (Fa, fla) :: base2) ∨
    (lvl = cil + 1 ∧ lastI = some ("nest".toList) ∧
      ∃ G gl base3, stack = (addChild G Fa fla, gl) :: base3 ∧
        base2 = (G, gl) :: base3)

/-- The cursor just past the indent of a line "indentStr lvl ++ body" sees
exactly body. -/
theorem rem_norm (fn : Str) (lines : List Str) (li lvl : Nat) (body : Str)
    (restl : List Str)
    (h : lines.drop li = (indentStr lvl ++ body) :: restl) :
    rem ⟨fn, lines, li, 2 * lvl, lvl⟩ = body := by
  have hcl : currentLine ⟨fn, lines, li, 2 * lvl, lvl⟩ =
      indentStr lvl ++ body := currentLine_of_drop _ _ _ h
  show (currentLine ⟨fn, lines, li, 2 * lvl, lvl⟩).drop (2 * lvl) = body
  rw [hcl, show 2 * lvl = (indentStr lvl).length from by simp [indentStr],
    List.drop_left]

theorem not_mem_append {a : Char} {x y : Str} (hx : a ∉ x) (hy : a ∉ y) :
    a ∉ x ++ y := by
  intro h
  rcases List.mem_append.mp h with h | h
  · exact hx h
  · exact hy h

theorem goodTokB_no_nl (tok : Str) (h : goodTokB tok = true) : '\n' ∉ tok := by
  intro hm
  exact ((goodTokB_parts tok h).2 '\n' hm).2 rfl

theorem indentStr_no_nl (lvl : Nat) : '\n' ∉ indentStr lvl := by
  intro hm
  have := List.eq_of_mem_replicate hm
  exact absurd this (by decide)

/-- parsedChildren preserves the number of children. -/
theorem parsedChildren_length (cs : List (RB × Option Str)) :
    (parsedChildren cs).length = cs.length := by
  induction cs with
  | nil => simp [parsedChildren]
  | cons c rest ih =>
    obtain ⟨⟨nm, u, rs, ri, kids⟩, loc⟩ := c
    cases ri <;> cases loc <;> simp [parsedChildren, ih]

/-- Every child produces at least one manifest line. -/
theorem planSize_pos (b : RB) (loc : Option Str)
    (rest : List (RB × Option Str)) : 1 ≤ planSize ((b, loc) :: rest) := by
  obtain ⟨nm, u, rs, ri, kids⟩ := b
  cases loc <;> simp [planSize] <;> omega

/-- No manifest line of a well-formed child list contains a newline. -/
theorem child_lines_no_nl (N : Nat) : ∀ (cs : List (RB × Option Str)),
    planSize cs ≤ N → wfChildren cs = true →
    ∀ (lvl : Nat) (l : Str), l ∈ child_lines cs lvl → '\n' ∉ l := by
  induction N with
  | zero =>
    intro cs hsz hwf lvl l hl
    cases cs with
    | nil => simp [child_lines] at hl
    | cons c rest =>
      obtain ⟨b, loc⟩ := c
      have := planSize_pos b loc rest
      omega
  | succ N ih =>
    intro cs hsz hwf lvl l hl
    cases cs with
    | nil => simp [child_lines] at hl
    | cons c rest =>
      obtain ⟨⟨nm, u, rs, ri, kids⟩, loc⟩ := c
      obtain ⟨⟨n, rfl, hn⟩, hu, ⟨r, rfl, hr⟩, hloc, hwfrest⟩ :=
        wfChildren_parts _ _ _ _ _ _ _ hwf
      rcases hloc with ⟨lc, rfl, hlc, hfree, hwfkids⟩ | ⟨rfl, rfl⟩
      · simp only [planSize] at hsz
        have hszk : planSize kids ≤ N := by omega
        have hszr : planSize rest ≤ N := by omega
        simp only [child_lines, fmtOptStr] at hl
        rcases List.mem_cons.mp hl with rfl | hl2
        · intro hm
          simp only [List.mem_append] at hm
          rcases hm with ((((((((h | h) | h) | h) | h) | h) | h) | h) | h)
          · exact indentStr_no_nl lvl h
          · exact absurd h (by decide)
          · exact goodTokB_no_nl n hn h
          · exact absurd h (by decide)
          · exact goodTokB_no_nl u hu h
          · exact absurd h (by decide)
          · exact goodTokB_no_nl lc hlc h
          · exact absurd h (by decide)
          · exact goodTokB_no_nl r hr h
        · rcases List.mem_append.mp hl2 with h | h
          · exact ih kids hszk hwfkids (lvl + 1) l h
          · exact ih rest hszr hwfrest lvl l h
      · simp only [planSize] at hsz
        have hszr : planSize rest ≤ N := by omega
        simp only [child_lines, fmtOptStr] at hl
        rcases List.mem_cons.mp hl with rfl | hl2
        · intro hm
          simp only [List.mem_append] at hm
          rcases hm with ((((((h | h) | h) | h) | h) | h) | h)
          · exact indentStr_no_nl lvl h
          · exact absurd h (by decide)
          · exact goodTokB_no_nl n hn h
          · exact absurd h (by decide)
          · exact goodTokB_no_nl u hu h
          · exact absurd h (by decide)
          · exact goodTokB_no_nl r hr h
        · exact ih rest hszr hwfrest lvl l hl2

/-- _add_child_branches_to_manifest produces exactly the newline-joined
child_lines of a well-formed child list (in particular it never hits its
assertion). -/
theorem add_child_eq_joinNl (N : Nat) : ∀ (cs : List (RB × Option Str)),
    planSize cs ≤ N → wfChildren cs = true → ∀ (lvl : Nat),
    add_child_branches_to_manifest cs lvl =
      some (joinNl (child_lines cs lvl)) := by
  induction N with
  | zero =>
    intro cs hsz hwf lvl
    cases cs with
    | nil => simp [add_child_branches_to_manifest, child_lines, joinNl]
    | cons c rest =>
      obtain ⟨b, loc⟩ := c
      have := planSize_pos b loc rest
      omega
  | succ N ih =>
    intro cs hsz hwf lvl
    cases cs with
    | nil => simp [add_child_branches_to_manifest, child_lines, joinNl]
    | cons c rest =>
      obtain ⟨⟨nm, u, rs, ri, kids⟩, loc⟩ := c
      obtain ⟨⟨n, rfl, hn⟩, hu, ⟨r, rfl, hr⟩, hloc, hwfrest⟩ :=
        wfChildren_parts _ _ _ _ _ _ _ hwf
      rcases hloc with ⟨lc, rfl, hlc, hfree, hwfkids⟩ | ⟨rfl, rfl⟩
      · simp only [planSize] at hsz
        have hszk : planSize kids ≤ N := by omega
        have hszr : planSize rest ≤ N := by omega
        simp only [add_child_branches_to_manifest, child_lines,
          ih kids hszk hwfkids (lvl + 1), ih rest hszr hwfrest lvl, joinNl,
          joinNl_append]
        simp [List.append_assoc]
      · simp only [planSize] at hsz
        have hszr : planSize rest ≤ N := by omega
        simp only [add_child_branches_to_manifest, child_lines,
          ih rest hszr hwfrest lvl, joinNl]
        simp [List.append_assoc]

/-- Re-parsing the manifest reproduces the shape of a well-formed child
list: names, urls, nest locations, ordering and nesting all survive. -/
theorem parsedChildren_no_diff (N : Nat) : ∀ (cs : List (RB × Option Str)),
    planSize cs ≤ N → wfChildren cs = true →
    children_different_shape cs (parsedChildren cs) = false := by
  induction N with
  | zero =>
    intro cs hsz hwf
    cases cs with
    | nil => simp [parsedChildren, children_different_shape]
    | cons c rest =>
      obtain ⟨b, loc⟩ := c
      have := planSize_pos b loc rest
      omega
  | succ N ih =>
    intro cs hsz hwf
    cases cs with
    | nil => simp [parsedChildren, children_different_shape]
    | cons c rest =>
      obtain ⟨⟨nm, u, rs, ri, kids⟩, loc⟩ := c
      obtain ⟨⟨n, rfl, hn⟩, hu, ⟨r, rfl, hr⟩, hloc, hwfrest⟩ :=
        wfChildren_parts _ _ _ _ _ _ _ hwf
      rcases hloc with ⟨lc, rfl, hlc, hlcrest, hwfkids⟩ | ⟨rfl, rfl⟩
      · simp only [planSize] at hsz
        have hszk : planSize kids ≤ N := by omega
        have hszr : planSize rest ≤ N := by omega
        have hshape : different_shape_to (RB.node (some n) u rs (some r) kids)
            (RB.node (some n) u (some ("revid:".toList ++ r)) none
              (parsedChildren kids)) = false := by
          simp only [different_shape_to]
          rw [if_neg (by simp), if_neg (by simp),
            if_neg (by simp [parsedChildren_length])]
          exact ih kids hszk hwfkids
        simp only [parsedChildren, fmtOptStr, children_different_shape]
        rw [if_neg (by simp), hshape]
        simp only [Bool.false_eq_true, if_false]
        exact ih rest hszr hwfrest
      · simp only [planSize] at hsz
        have hszr : planSize rest ≤ N := by omega
        have hshape : different_shape_to (RB.node (some n) u rs (some r) [])
            (RB.node (some n) u (some ("revid:".toList ++ r)) none []) =
            false := by
          simp only [different_shape_to]
          rw [if_neg (by simp), if_neg (by simp), if_neg (by simp)]
          rfl
        simp only [parsedChildren, fmtOptStr, children_different_shape]
        rw [if_neg (by simp), hshape]
        simp only [Bool.false_eq_true, if_false]
        exact ih rest hszr hwfrest

/-- The heart of the round trip: running the parse loop over the manifest
lines of a well-formed child list consumes exactly one fuel unit and one
line per manifest line and appends exactly the re-parsed children to the
accumulated branch, whatever the surrounding stack. -/
theorem seq_parse (N : Nat) : ∀ (cs : List (RB × Option Str)),
    planSize cs ≤ N → wfChildren cs = true →
    ∀ (lvl fuel2 : Nat) (s : PState) (stack : Frames) (li0 : Str)
      (Fa : RB) (fla : Option Str) (base2 : Frames) (restl : List Str),
    s.index = 0 →
    s.lines.drop s.lineIndex = child_lines cs lvl ++ restl →
    (∀ l : Str, some l ∈ cs.map Prod.snd →
      ((Fa.children.map Prod.snd).contains (some l)) = false) →
    encodes stack s.currentIndentLevel lvl (some li0) Fa fla base2 →
    ∃ (cil2 : Nat) (stack2 : Frames) (li2 : Str),
      parse_lines ((child_lines cs lvl).length + fuel2) s stack (some li0) =
        parse_lines fuel2
          ⟨s.filename, s.lines, s.lineIndex + (child_lines cs lvl).length, 0,
            cil2⟩ stack2 (some li2) ∧
      encodes stack2 cil2 lvl (some li2)
        (addChildren Fa (parsedChildren cs)) fla base2 := by
  induction N with
  | zero =>
    intro cs hsz hwf lvl fuel2 s stack li0 Fa fla base2 restl hidx hlines
      hfree hmode
    cases cs with
    | nil =>
      refine ⟨s.currentIndentLevel, stack, li0, ?_, ?_⟩
      · obtain ⟨fn, lines, li, idx, cil⟩ := s
        simp only at hidx
        subst hidx
        simp only [child_lines, List.length_nil, Nat.zero_add, Nat.add_zero]
      · simp only [parsedChildren, addChildren_nil]
        exact hmode
    | cons c rest =>
      obtain ⟨b, loc⟩ := c
      have := planSize_pos b loc rest
      omega
  | succ N ih =>
    intro cs hsz hwf lvl fuel2 s stack li0 Fa fla base2 restl hidx hlines
      hfree hmode
    cases cs with
    | nil =>
      refine ⟨s.currentIndentLevel, stack, li0, ?_, ?_⟩
      · obtain ⟨fn, lines, li, idx, cil⟩ := s
        simp only at hidx
        subst hidx
        simp only [child_lines, List.length_nil, Nat.zero_add, Nat.add_zero]
      · simp only [parsedChildren, addChildren_nil]
        exact hmode
    | cons c rest =>
      obtain ⟨⟨nm, u, rs, ri, kids⟩, loc⟩ := c
      obtain ⟨⟨n, rfl, hn⟩, hu, ⟨r, rfl, hr⟩, hloc, hwfrest⟩ :=
        wfChildren_parts _ _ _ _ _ _ _ hwf
      have hnp := goodTokB_parts n hn
      have hup := goodTokB_parts u hu
      have hrvp := revid_tok_good r hr
      rcases hloc with ⟨lc, rfl, hlc, hlcrest, hwfkids⟩ | ⟨rfl, rfl⟩
      · -- nest child followed by its own lines, then the remaining siblings
        simp only [planSize] at hsz
        have hszk : planSize kids ≤ N := by omega
        have hszr : planSize rest ≤ N := by omega
        have hlcp := goodTokB_parts lc hlc
        have hcl : child_lines
            ((RB.node (some n) u rs (some r) kids, some lc) :: rest) lvl =
            (indentStr lvl ++ ("nest".toList ++ ' ' :: (n ++ ' ' :: (u ++
              ' ' :: (lc ++ ' ' :: ("revid:".toList ++ r)))))) ::
            (child_lines kids (lvl + 1) ++ child_lines rest lvl) := by
          simp only [child_lines, fmtOptStr]
          rw [← nest_line_shape]
        have hlen : (child_lines ((RB.node (some n) u rs (some r) kids,
            some lc) :: rest) lvl).length =
            (child_lines kids (lvl + 1)).length +
              (child_lines rest lvl).length + 1 := by
          rw [hcl]
          simp
        rw [hcl] at hlines
        simp only [List.cons_append] at hlines
        rw [hlen]
        rw [show (child_lines kids (lvl + 1)).length +
            (child_lines rest lvl).length + 1 + fuel2 =
            ((child_lines kids (lvl + 1)).length +
              ((child_lines rest lvl).length + fuel2)) + 1 from by omega]
        rw [loop_step_at_level ((child_lines kids (lvl + 1)).length +
            ((child_lines rest lvl).length + fuel2)) s stack (some li0) lvl
          ("nest".toList ++ ' ' :: (n ++ ' ' :: (u ++ ' ' :: (lc ++ ' ' ::
            ("revid:".toList ++ r)))))
          ((child_lines kids (lvl + 1) ++ child_lines rest lvl) ++ restl)
          Fa fla base2 hidx hlines
          ⟨'n', "est".toList ++ ' ' :: (n ++ ' ' :: (u ++ ' ' :: (lc ++
            ' ' :: ("revid:".toList ++ r)))), rfl, by decide⟩ hmode]
        have hrem : rem ⟨s.filename, s.lines, s.lineIndex, 2 * lvl, lvl⟩ =
            "nest".toList ++ ' ' :: (n ++ ' ' :: (u ++ ' ' :: (lc ++ ' ' ::
              ("revid:".toList ++ r)))) :=
          rem_norm s.filename s.lines s.lineIndex lvl _ _ hlines
        have husedF : locUsed Fa lc = false := by
          unfold locUsed
          exact hfree lc (by simp)
        rw [parse_line_rest_nest _ Fa fla base2 li0 n u lc
          ("revid:".toList ++ r) hnp.1 (fun c hc => (hnp.2 c hc).1)
          hup.1 (fun c hc => (hup.2 c hc).1)
          hlcp.1 (fun c hc => (hlcp.2 c hc).1)
          hrvp.1 hrvp.2 husedF hrem]
        dsimp only
        have hlines2 : s.lines.drop (s.lineIndex + 1) =
            child_lines kids (lvl + 1) ++
              (child_lines rest lvl ++ restl) := by
          have hd := drop_cons_succ s.lines s.lineIndex _ _ hlines
          rw [hd, List.append_assoc]
        obtain ⟨cilK, stackK, liK, heqK, hencK⟩ :=
          ih kids hszk hwfkids (lvl + 1)
            ((child_lines rest lvl).length + fuel2)
            ⟨s.filename, s.lines, s.lineIndex + 1, 0, lvl⟩
            ((addChild Fa (RB.node (some n) u
              (some ("revid:".toList ++ r)) none []) (some lc), fla) :: base2)
            ("nest".toList)
            (RB.node (some n) u (some ("revid:".toList ++ r)) none [])
            (some lc) ((Fa, fla) :: base2)
            (child_lines rest lvl ++ restl)
            rfl hlines2 (fun l _ => rfl)
            (Or.inr ⟨rfl, rfl, Fa, fla, base2, rfl, rfl⟩)
        have hmodeR : encodes stackK cilK lvl (some liK)
            (addChild Fa (addChildren (RB.node (some n) u
              (some ("revid:".toList ++ r)) none [])
              (parsedChildren kids)) (some lc)) fla base2 := by
          rcases hencK with ⟨deepK, F2, hstK, hcilK, hpopK⟩ |
            ⟨hlvlB, _, G, gl, base3, hstB, hbase3⟩
          · left
            refine ⟨deepK ++ [(F2, some lc)], Fa, ?_, ?_, ?_⟩
            · rw [hstK]
              simp
            · simp only [List.length_append, List.length_cons,
                List.length_nil]
              omega
            · simp only [List.length_append, List.length_cons,
                List.length_nil, Nat.zero_add]
              rw [show deepK.length + 1 = deepK.length + 1 from rfl,
                popFrames_succ_outer, hpopK]
              rfl
          · simp only [List.cons.injEq, Prod.mk.injEq] at hbase3
            obtain ⟨⟨hG, hgl⟩, hb3⟩ := hbase3
            subst hG
            subst hgl
            subst hb3
            left
            refine ⟨[], addChild Fa (addChildren (RB.node (some n) u
              (some ("revid:".toList ++ r)) none [])
              (parsedChildren kids)) (some lc), ?_, ?_, ?_⟩
            · simpa using hstB
            · simp only [List.length_nil]
              omega
            · exact hstB
        have hfree3 : ∀ l : Str, some l ∈ rest.map Prod.snd →
            (((addChild Fa (addChildren (RB.node (some n) u
              (some ("revid:".toList ++ r)) none [])
              (parsedChildren kids)) (some lc)).children.map
              Prod.snd).contains (some l)) = false := by
          intro l hl
          rw [contains_addChild]
          have h1 := hfree l (by
            simp only [List.map_cons]
            exact List.mem_cons_of_mem _ hl)
          rw [h1, Bool.false_or]
          simp only [beq_eq_false_iff_ne, ne_eq, Option.some.injEq]
          intro hceq
          subst hceq
          have hmem : (List.map Prod.snd rest).contains (some lc) = true := by
            simpa using hl
          rw [hmem] at hlcrest
          exact Bool.noConfusion hlcrest
        have hlines3 : s.lines.drop (s.lineIndex + 1 +
            (child_lines kids (lvl + 1)).length) =
            child_lines rest lvl ++ restl := by
          rw [← List.drop_drop, hlines2, List.drop_left]
        obtain ⟨cil2, stack2, li2, heqR, hencR⟩ :=
          ih rest hszr hwfrest lvl fuel2
            ⟨s.filename, s.lines, s.lineIndex + 1 +
              (child_lines kids (lvl + 1)).length, 0, cilK⟩
            stackK liK
            (addChild Fa (addChildren (RB.node (some n) u
              (some ("revid:".toList ++ r)) none [])
              (parsedChildren kids)) (some lc)) fla base2 restl
            rfl hlines3 hfree3 hmodeR
        refine ⟨cil2, stack2, li2, ?_, ?_⟩
        · rw [heqK, heqR]
          rw [show s.lineIndex + 1 + (child_lines kids (lvl + 1)).length +
              (child_lines rest lvl).length = s.lineIndex +
              ((child_lines kids (lvl + 1)).length +
                (child_lines rest lvl).length + 1) from by omega]
        · have hpc : parsedChildren ((RB.node (some n) u rs (some r) kids,
              some lc) :: rest) =
              (RB.node (some n) u (some ("revid:".toList ++ r)) none
                (parsedChildren kids), some lc) :: parsedChildren rest := by
            simp [parsedChildren, fmtOptStr]
          have hFK : addChildren (RB.node (some n) u
              (some ("revid:".toList ++ r)) none []) (parsedChildren kids) =
              RB.node (some n) u (some ("revid:".toList ++ r)) none
                (parsedChildren kids) := by
            simp [addChildren]
          rw [hpc, ← addChildren_addChild, ← hFK]
          exact hencR
      · -- merge child: one line, then the remaining siblings
        simp only [planSize] at hsz
        have hszr : planSize rest ≤ N := by omega
        have hcl : child_lines
            ((RB.node (some n) u rs (some r) [], none) :: rest) lvl =
            (indentStr lvl ++ ("merge".toList ++ ' ' :: (n ++ ' ' :: (u ++
              ' ' :: ("revid:".toList ++ r))))) :: child_lines rest lvl := by
          simp only [child_lines, fmtOptStr]
          rw [← merge_line_shape]
        have hlen : (child_lines ((RB.node (some n) u rs (some r) [],
            none) :: rest) lvl).length =
            (child_lines rest lvl).length + 1 := by
          rw [hcl]
          simp
        rw [hcl] at hlines
        simp only [List.cons_append] at hlines
        rw [hlen]
        rw [show (child_lines rest lvl).length + 1 + fuel2 =
          ((child_lines rest lvl).length + fuel2) + 1 from by omega]
        rw [loop_step_at_level ((child_lines rest lvl).length + fuel2) s
          stack (some li0) lvl
          ("merge".toList ++ ' ' :: (n ++ ' ' :: (u ++ ' ' ::
            ("revid:".toList ++ r))))
          (child_lines rest lvl ++ restl) Fa fla base2 hidx hlines
          ⟨'m', "erge".toList ++ ' ' :: (n ++ ' ' :: (u ++ ' ' ::
            ("revid:".toList ++ r))), rfl, by decide⟩ hmode]
        have hrem : rem ⟨s.filename, s.lines, s.lineIndex, 2 * lvl, lvl⟩ =
            "merge".toList ++ ' ' :: (n ++ ' ' :: (u ++ ' ' ::
              ("revid:".toList ++ r))) :=
          rem_norm s.filename s.lines s.lineIndex lvl _ _ hlines
        rw [parse_line_rest_merge _ Fa fla base2 li0 n u
          ("revid:".toList ++ r) hnp.1 (fun c hc => (hnp.2 c hc).1)
          hup.1 (fun c hc => (hup.2 c hc).1) hrvp.1 hrvp.2 hrem]
        dsimp only
        have hlines2 : s.lines.drop (s.lineIndex + 1) =
            child_lines rest lvl ++ restl :=
          drop_cons_succ s.lines s.lineIndex _ _ hlines
        have hfree2 : ∀ l : Str, some l ∈ rest.map Prod.snd →
            (((addChild Fa (RB.node (some n) u
              (some ("revid:".toList ++ r)) none []) none).children.map
              Prod.snd).contains (some l)) = false := by
          intro l hl
          rw [contains_addChild]
          have h1 := hfree l (by
            simp only [List.map_cons]
            exact List.mem_cons_of_mem _ hl)
          rw [h1]
          rfl
        obtain ⟨cil2, stack2, li2, heqR, hencR⟩ :=
          ih rest hszr hwfrest lvl fuel2
            ⟨s.filename, s.lines, s.lineIndex + 1, 0, lvl⟩
            ((addChild Fa (RB.node (some n) u
              (some ("revid:".toList ++ r)) none []) none, fla) :: base2)
            ("merge".toList)
            (addChild Fa (RB.node (some n) u
              (some ("revid:".toList ++ r)) none []) none) fla base2 restl
            rfl hlines2 hfree2 (Or.inl ⟨[], _, rfl, rfl, rfl⟩)
        refine ⟨cil2, stack2, li2, ?_, ?_⟩
        · rw [heqR]
          rw [show s.lineIndex + 1 + (child_lines rest lvl).length =
            s.lineIndex + ((child_lines rest lvl).length + 1) from by omega]
        · have hpc : parsedChildren ((RB.node (some n) u rs (some r) [],
              none) :: rest) =
              (RB.node (some n) u (some ("revid:".toList ++ r)) none [],
                none) :: parsedChildren rest := by
            simp [parsedChildren, fmtOptStr]
          rw [hpc, ← addChildren_addChild]
          exact hencR

theorem parse_char_spec (ch : Char) (s : PState) (t : Str)
    (hrem : rem s = ch :: t) :
    parse_char ch s = .ok (ch, { s with index := s.index + 1 }) := by
  have hlt : s.index < (currentLine s).length :=
    rem_ne_nil_lt s (by rw [hrem]; simp)
  unfold parse_char
  rw [peek_char_head, hrem]
  simp only [List.head?_cons]
  simp only [eq_self_iff_true, if_true]
  unfold take_char
  rw [if_neg (by omega)]

theorem parse_word_spec (w : Str) (reqw : Bool) (s : PState) (t : Str)
    (hw : w ≠ []) (hwc : ∀ c ∈ w, isWS c = false)
    (hrem : rem s = ' ' :: (w ++ ' ' :: t)) :
    parse_word w reqw s =
      .ok (w, { s with index := s.index + (1 + w.length) }) := by
  obtain ⟨c0, w2, rfl⟩ : ∃ c0 w2, w = c0 :: w2 := by
    cases w with
    | nil => exact absurd rfl hw
    | cons a b => exact ⟨a, b, rfl⟩
  have hws : parse_whitespace ("\x27".toList ++ (c0 :: w2) ++ "\x27".toList)
      reqw s = .ok ([' '], { s with index := s.index + 1 }) := by
    cases reqw with
    | true =>
      exact parse_whitespace_req_spec _ s _ hrem
        (Or.inr ⟨c0, w2 ++ ' ' :: t, rfl, hwc c0 (List.mem_cons_self c0 w2)⟩)
    | false =>
      unfold parse_whitespace
      rw [if_neg (by simp)]
      rw [skip_ws_eq, hrem]
      have htw : List.takeWhile isWS (' ' :: ((c0 :: w2) ++ ' ' :: t)) =
          [' '] := by
        simp only [List.takeWhile_cons, List.cons_append]
        rw [if_pos (by decide)]
        simp [List.takeWhile_cons, hwc c0 (List.mem_cons_self c0 w2)]
      rw [htw]
      rfl
  unfold parse_word
  rw [hws]
  dsimp only
  have hrem2 : rem { s with index := s.index + 1 } = (c0 :: w2) ++ ' ' :: t := by
    have := rem_advance s [' '] ((c0 :: w2) ++ ' ' :: t) (by simpa using hrem)
    simpa using this
  rw [peek_to_whitespace_cons _ _ _ (by simpa using hrem2)]
  have htk : List.takeWhile (fun x => !(isWS x)) ((c0 :: w2) ++ ' ' :: t) =
      (c0 :: w2) := by
    rw [takeWhile_all_append _ _ _ (fun x hx => by simp [hwc x hx])]
    rw [show List.takeWhile (fun x => !(isWS x)) (' ' :: t) = [] from by
      simp only [List.takeWhile_cons]
      rw [if_neg (by decide)]]
    simp
  simp only [List.cons_append] at htk
  rw [htk]
  simp only [eq_self_iff_true, if_true]
  rw [take_chars_spec (c0 :: w2) _ (' ' :: t) hrem2]
  simp [Nat.add_assoc]


theorem parse_float_01_spec (lf : Str) (s : PState) (t : Str)
    (hrem : rem s = ' ' :: ("0.1".toList ++ ' ' :: t)) :
    parse_float lf s =
      .ok ("0.1".toList, { s with index := s.index + 4 }) := by
  unfold parse_float
  rw [parse_whitespace_req_spec _ s _ hrem
    (Or.inr ⟨'0', ".1".toList ++ ' ' :: t, rfl, by decide⟩)]
  dsimp only
  have hrem2 : rem { s with index := s.index + 1 } =
      '0' :: '.' :: '1' :: ' ' :: t := by
    have := rem_advance s [' '] ("0.1".toList ++ ' ' :: t) (by simpa using hrem)
    simpa using this
  have hline : (currentLine { s with index := s.index + 1 }).drop
      (s.index + 1) = '0' :: '.' :: '1' :: ' ' :: t := hrem2
  have hic : parse_integer_chars { s with index := s.index + 1 } 0 =
      ['0'] := by
    unfold parse_integer_chars
    show ((currentLine { s with index := s.index + 1 }).drop
      (s.index + 1 + 0)).takeWhile isDigitCh = ['0']
    rw [show s.index + 1 + 0 = s.index + 1 from rfl, hline]
    simp only [List.takeWhile_cons]
    rw [if_pos (by decide : isDigitCh '0' = true),
      if_neg (by decide : ¬ isDigitCh '.' = true)]
  rw [hic]
  rw [if_neg (by simp)]
  have hpk : peek_char { s with index := s.index + 1 } (['0'].length) =
      some '.' := by
    unfold peek_char
    rw [get?_eq_head?_drop]
    show ((currentLine { s with index := s.index + 1 }).drop
      (s.index + 1 + 1)).head? = some '.'
    rw [← List.drop_drop, hline]
    rfl
  rw [hpk]
  have hic2 : parse_integer_chars { s with index := s.index + 1 }
      (['0'].length + 1) = ['1'] := by
    unfold parse_integer_chars
    show ((currentLine { s with index := s.index + 1 }).drop
      (s.index + 1 + 2)).takeWhile isDigitCh = ['1']
    rw [← List.drop_drop, hline]
    rw [show List.drop 2 ('0' :: '.' :: '1' :: ' ' :: t) =
      '1' :: ' ' :: t from rfl]
    simp only [List.takeWhile_cons]
    rw [if_pos (by decide : isDigitCh '1' = true),
      if_neg (by decide : ¬ isDigitCh ' ' = true)]
  rw [hic2]
  rw [if_neg (by simp)]
  rw [show (['0'] : Str).length + 1 + (['1'] : Str).length =
    ("0.1".toList).length from rfl]
  rw [take_chars_spec ("0.1".toList) _ (' ' :: t) hrem2]
  have harith : s.index + 1 + ("0.1".toList).length = s.index + 4 := by
    simp
  rw [harith]
  rfl

theorem parse_header_spec (s : PState) (d : Str)
    (hd : d ≠ []) (hdc : ∀ c ∈ d, isWS c = false)
    (hrem : rem s = "# bzr-builder format 0.1 deb-version ".toList ++ d) :
    parse_header s =
      .ok (("0.1".toList, d), ⟨s.filename, s.lines, s.lineIndex + 1, 0,
        s.currentIndentLevel⟩) := by
  have hrem0 : rem s = '#' :: (' ' :: ("bzr-builder".toList ++ ' ' ::
      ("format".toList ++ ' ' :: ("0.1".toList ++ ' ' ::
        ("deb-version".toList ++ ' ' :: d))))) := by
    rw [hrem]
    rfl
  unfold parse_header
  rw [parse_char_spec '#' s _ hrem0]
  dsimp only
  have hrem1 : rem { s with index := s.index + 1 } =
      ' ' :: ("bzr-builder".toList ++ ' ' :: ("format".toList ++ ' ' ::
        ("0.1".toList ++ ' ' :: ("deb-version".toList ++ ' ' :: d)))) := by
    have h0 : rem s = ['#'] ++ (' ' :: ("bzr-builder".toList ++ ' ' ::
        ("format".toList ++ ' ' :: ("0.1".toList ++ ' ' ::
          ("deb-version".toList ++ ' ' :: d))))) := by
      rw [hrem0]
      rfl
    have h1 := rem_advance s ['#'] _ h0
    simpa using h1
  rw [parse_word_spec ("bzr-builder".toList) false _
    ("format".toList ++ ' ' :: ("0.1".toList ++ ' ' ::
      ("deb-version".toList ++ ' ' :: d))) (by decide) (by decide) hrem1]
  dsimp only
  have hrem2 : rem { s with index := s.index + 1 +
      (1 + ("bzr-builder".toList).length) } =
      ' ' :: ("format".toList ++ ' ' :: ("0.1".toList ++ ' ' ::
        ("deb-version".toList ++ ' ' :: d))) := by
    have h0 : rem { s with index := s.index + 1 } =
        (' ' :: "bzr-builder".toList) ++ (' ' :: ("format".toList ++ ' ' ::
          ("0.1".toList ++ ' ' :: ("deb-version".toList ++ ' ' :: d)))) := by
      rw [hrem1]
      simp
    have h1 := rem_advance _ _ _ h0
    rw [rem_index_congr _ _ ({ s with index := s.index + 1 }.index +
      (' ' :: "bzr-builder".toList).length) (by simp)]
    exact h1
  rw [parse_word_spec ("format".toList) true _
    ("0.1".toList ++ ' ' :: ("deb-version".toList ++ ' ' :: d))
    (by decide) (by decide) hrem2]
  dsimp only
  have hrem3 : rem { s with index := s.index + 1 +
      (1 + ("bzr-builder".toList).length) +
      (1 + ("format".toList).length) } =
      ' ' :: ("0.1".toList ++ ' ' ::
        ("deb-version".toList ++ ' ' :: d)) := by
    have h0 : rem { s with index := s.index + 1 +
        (1 + ("bzr-builder".toList).length) } =
        (' ' :: "format".toList) ++ (' ' :: ("0.1".toList ++ ' ' ::
          ("deb-version".toList ++ ' ' :: d))) := by
      rw [hrem2]
      simp
    have h1 := rem_advance _ _ _ h0
    rw [rem_index_congr _ _ ({ s with index := s.index + 1 +
      (1 + ("bzr-builder".toList).length) }.index +
      (' ' :: "format".toList).length) (by simp)]
    exact h1
  rw [parse_float_01_spec _ _
    ("deb-version".toList ++ ' ' :: d) hrem3]
  dsimp only
  have hrem4 : rem { s with index := s.index + 1 +
      (1 + ("bzr-builder".toList).length) +
      (1 + ("format".toList).length) + 4 } =
      ' ' :: ("deb-version".toList ++ ' ' :: d) := by
    have h0 : rem { s with index := s.index + 1 +
        (1 + ("bzr-builder".toList).length) +
        (1 + ("format".toList).length) } =
        (' ' :: "0.1".toList) ++ (' ' ::
          ("deb-version".toList ++ ' ' :: d)) := by
      rw [hrem3]
      simp
    have h1 := rem_advance _ _ _ h0
    rw [rem_index_congr _ _ ({ s with index := s.index + 1 +
      (1 + ("bzr-builder".toList).length) +
      (1 + ("format".toList).length) }.index +
      (' ' :: "0.1".toList).length) (by simp)]
    exact h1
  rw [parse_word_spec ("deb-version".toList) true _ d
    (by decide) (by decide) hrem4]
  dsimp only
  obtain ⟨d0, d2, rfl⟩ : ∃ d0 d2, d = d0 :: d2 := by
    cases d with
    | nil => exact absurd rfl hd
    | cons a b => exact ⟨a, b, rfl⟩
  have hrem5 : rem { s with index := s.index + 1 +
      (1 + ("bzr-builder".toList).length) +
      (1 + ("format".toList).length) + 4 +
      (1 + ("deb-version".toList).length) } = ' ' :: (d0 :: d2) := by
    have h0 : rem { s with index := s.index + 1 +
        (1 + ("bzr-builder".toList).length) +
        (1 + ("format".toList).length) + 4 } =
        (' ' :: "deb-version".toList) ++ (' ' :: (d0 :: d2)) := by
      rw [hrem4]
      simp
    have h1 := rem_advance _ _ _ h0
    rw [rem_index_congr _ _ ({ s with index := s.index + 1 +
      (1 + ("bzr-builder".toList).length) +
      (1 + ("format".toList).length) + 4 }.index +
      (' ' :: "deb-version".toList).length) (by simp)]
    exact h1
  rw [parse_whitespace_req_spec _ _ (d0 :: d2) hrem5
    (Or.inr ⟨d0, d2, rfl, hdc d0 (List.mem_cons_self d0 d2)⟩)]
  dsimp only
  have hrem6 : rem { s with index := s.index + 1 +
      (1 + ("bzr-builder".toList).length) +
      (1 + ("format".toList).length) + 4 +
      (1 + ("deb-version".toList).length) + 1 } = (d0 :: d2) ++ [] := by
    have h0 : rem { s with index := s.index + 1 +
        (1 + ("bzr-builder".toList).length) +
        (1 + ("format".toList).length) + 4 +
        (1 + ("deb-version".toList).length) } =
        [' '] ++ ((d0 :: d2) ++ []) := by
      rw [hrem5]
      simp
    have h1 := rem_advance _ _ _ h0
    rw [rem_index_congr _ _ ({ s with index := s.index + 1 +
      (1 + ("bzr-builder".toList).length) +
      (1 + ("format".toList).length) + 4 +
      (1 + ("deb-version".toList).length) }.index +
      ([' '] : Str).length) (by simp)]
    exact h1
  rw [take_to_whitespace_spec _ _ (d0 :: d2) [] (by simp) hdc hrem6
    (Or.inl rfl)]
  dsimp only
  rw [new_line_spec _ (by
    rw [rem_advance _ (d0 :: d2) [] hrem6]
    rfl)]

/-- The manifest ends in a newline, so the split lines end with one empty
line: the loop consumes it (popping all still-open indent scopes back to the
root) and then stops at the end of the input with the root as the only
frame. -/
theorem final_blank_exit (fn : Str) (lines : List Str) (li cil : Nat)
    (stack : Frames) (liw : Str) (Froot : RB) (deep : Frames) (F2 : RB)
    (hlen : lines.length = li + 1)
    (hlast : lines.drop li = [([] : Str)])
    (hcil : cil = deep.length)
    (hstack : stack = deep ++ [(F2, (none : Option Str))])
    (hpops : popFrames stack deep.length = [(Froot, none)]) :
    parse_lines 2 ⟨fn, lines, li, 0, cil⟩ stack (some liw) =
      .ok ([(Froot, none)], ⟨fn, lines, li + 1, 0, 0⟩) := by
  subst hcil
  subst hstack
  have hremAny : ∀ (ix cil2 : Nat), rem ⟨fn, lines, li, ix, cil2⟩ = [] := by
    intro ix cil2
    show (currentLine ⟨fn, lines, li, ix, cil2⟩).drop ix = []
    rw [show currentLine ⟨fn, lines, li, ix, cil2⟩ = [] from
      currentLine_of_drop _ _ _ hlast]
    simp
  rw [show (2 : Nat) = 1 + 1 from rfl]
  rw [parse_lines]
  rw [if_neg (by
    show ¬ (li ≥ lines.length)
    omega)]
  cases deep with
  | nil =>
    rw [parse_indent_same _ (by rw [hremAny 0 (List.length ([] : Frames))]; rfl)]
    dsimp only
    rw [parse_line_rest_blank _ _ _ (hremAny _ _)]
    dsimp only
    rw [show (1 : Nat) = 0 + 1 from rfl]
    rw [parse_lines]
    rw [if_pos (by
      show li + 1 ≥ lines.length
      omega)]
    have hF : ([] : Frames) ++ [(F2, (none : Option Str))] =
        [(Froot, none)] := hpops
    rw [hF]
    rfl
  | cons dd deep2 =>
    rw [parse_indent_change _ 0
      (by rw [hremAny 0 (List.length (dd :: deep2))]; rfl)
      (by simp) (by omega)]
    dsimp only
    rw [if_neg (by
      rintro ⟨h1, _⟩
      have h2 : (dd :: deep2).length < 0 := h1
      omega)]
    rw [if_neg (by
      intro h1
      have h2 : (dd :: deep2).length < 0 := h1
      omega)]
    rw [Nat.sub_zero, hpops]
    rw [parse_line_rest_blank _ _ _ (hremAny _ _)]
    dsimp only
    rw [show (1 : Nat) = 0 + 1 from rfl]
    rw [parse_lines]
    rw [if_pos (by
      show li + 1 ≥ lines.length
      omega)]


/-- C5: round-trip law.  For every fully resolved plan that build_manifest
serializes (root named None with a clean url, every node carrying a clean
revid, names/urls/locations clean tokens, sibling nest locations distinct,
merge children leaves), build_manifest succeeds and re-parsing the produced
manifest succeeds, returns the manifest's deb-version template, and yields a
plan that different_shape_to finds shape-equal to the original: names,
urls, instruction kind and ordering, and nesting structure all survive,
while the revision data turns into "revid:<revid>" specs, exactly as the
sanity check at the end of the source's build_manifest
(src/recipe.py:341-352) demands. -/
theorem c5_round_trip (P : RB) (d : Str)
    (hready : manifest_ready P d = true) :
    ∃ m Q, build_manifest P d = some m ∧ parse m = .ok (Q, d) ∧
      different_shape_to P Q = false := by
  obtain ⟨nm, u, rs, ri, cs⟩ := P
  unfold manifest_ready at hready
  simp only [Bool.and_eq_true] at hready
  obtain ⟨⟨⟨⟨⟨hnm, hu⟩, huh⟩, hdt⟩, hri⟩, hwf⟩ := hready
  have hnmE : nm = none := by
    cases nm with
    | none => rfl
    | some x => simp at hnm
  subst hnmE
  obtain ⟨r, hriE, hr⟩ : ∃ r, ri = some r ∧ goodTokB r = true := by
    cases ri with
    | none => simp at hri
    | some r => exact ⟨r, rfl, hri⟩
  subst hriE
  simp only [bne_iff_ne, ne_eq] at huh
  have hup := goodTokB_parts u hu
  have hdp := goodTokB_parts d hdt
  have hrp := revid_tok_good r hr
  obtain ⟨u0, u2, rfl⟩ : ∃ u0 u2, u = u0 :: u2 := by
    cases u with
    | nil => exact absurd rfl hup.1
    | cons a b => exact ⟨a, b, rfl⟩
  have hmani : build_manifest (RB.node none (u0 :: u2) rs (some r) cs) d =
      some (joinNl (("# bzr-builder format 0.1 deb-version ".toList ++ d) ::
        ((u0 :: u2) ++ ' ' :: ("revid:".toList ++ r)) ::
        child_lines cs 0)) := by
    unfold build_manifest
    dsimp only
    rw [add_child_eq_joinNl (planSize cs) cs (le_refl _) hwf 0]
    dsimp only
    simp [joinNl, List.append_assoc]
  have hnlAll : ∀ l ∈ ("# bzr-builder format 0.1 deb-version ".toList ++ d) ::
      ((u0 :: u2) ++ ' ' :: ("revid:".toList ++ r)) :: child_lines cs 0,
      '\n' ∉ l := by
    intro l hl
    rcases List.mem_cons.mp hl with rfl | hl2
    · exact not_mem_append (by decide) (goodTokB_no_nl d hdt)
    · rcases List.mem_cons.mp hl2 with rfl | hl3
      · refine not_mem_append (goodTokB_no_nl _ hu) ?_
        intro hm
        rcases List.mem_cons.mp hm with h | h
        · exact absurd h (by decide)
        · rcases List.mem_append.mp h with h2 | h2
          · exact absurd h2 (by decide)
          · exact goodTokB_no_nl r hr h2
      · exact child_lines_no_nl (planSize cs) cs (le_refl _) hwf 0 l hl3
  have hsplit := splitNl_joinNl _ hnlAll
  refine ⟨joinNl (("# bzr-builder format 0.1 deb-version ".toList ++ d) ::
      ((u0 :: u2) ++ ' ' :: ("revid:".toList ++ r)) :: child_lines cs 0),
    RB.node none (u0 :: u2) (some ("revid:".toList ++ r)) none
      (parsedChildren cs), hmani, ?_, ?_⟩
  · unfold parse
    dsimp only
    rw [hsplit]
    rw [parse_header_spec _ d hdp.1 (fun c hc => (hdp.2 c hc).1) (by rfl)]
    dsimp only
    rw [show (0 : Nat) + 1 = 1 from rfl]
    rw [show List.length
        ((("# bzr-builder format 0.1 deb-version ".toList ++ d) ::
          ((u0 :: u2) ++ ' ' :: ("revid:".toList ++ r)) ::
            child_lines cs 0) ++ [[]]) =
        ((child_lines cs 0).length + 2) + 1 from by simp]
    rw [parse_lines]
    rw [if_neg (by
      show ¬ (1 ≥ List.length
        ((("# bzr-builder format 0.1 deb-version ".toList ++ d) ::
          ((u0 :: u2) ++ ' ' :: ("revid:".toList ++ r)) ::
            child_lines cs 0) ++ [[]]))
      simp only [List.length_cons, List.length_append, List.length_nil]
      omega)]
    rw [parse_indent_same _ (by
      rw [show rem ⟨"recipe".toList,
        (("# bzr-builder format 0.1 deb-version ".toList ++ d) ::
          ((u0 :: u2) ++ ' ' :: ("revid:".toList ++ r)) ::
            child_lines cs 0) ++ [[]], 1, 0, 0⟩ =
        (u0 :: u2) ++ ' ' :: ("revid:".toList ++ r) from rfl]
      simp only [List.cons_append, List.takeWhile_cons]
      rw [if_neg (by simp [(hup.2 u0 (List.mem_cons_self u0 u2)).1])]
      rfl)]
    dsimp only
    rw [parse_line_rest_base _ (u0 :: u2) ("revid:".toList ++ r)
      (by simp) (fun c hc => (hup.2 c hc).1) huh hrp.1 hrp.2 (by rfl) _]
    dsimp only
    obtain ⟨cil2, stack2, li2, heq2, henc2⟩ :=
      seq_parse (planSize cs) cs (le_refl _) hwf 0 2
        ⟨"recipe".toList,
          (("# bzr-builder format 0.1 deb-version ".toList ++ d) ::
            ((u0 :: u2) ++ ' ' :: ("revid:".toList ++ r)) ::
              child_lines cs 0) ++ [[]], 1 + 1, 0, 0⟩
        [(RB.node none (u0 :: u2) (some ("revid:".toList ++ r)) none [],
          none)]
        [] (RB.node none (u0 :: u2) (some ("revid:".toList ++ r)) none [])
        none [] [[]] rfl (by rfl) (fun l hl => rfl)
        (Or.inl ⟨[], RB.node none (u0 :: u2)
          (some ("revid:".toList ++ r)) none [], rfl, rfl, rfl⟩)
    rcases henc2 with ⟨deep, F2, hst, hcil, hpop⟩ | ⟨habs, _⟩
    · rw [heq2]
      have hlen : List.length
          ((("# bzr-builder format 0.1 deb-version ".toList ++ d) ::
            ((u0 :: u2) ++ ' ' :: ("revid:".toList ++ r)) ::
              child_lines cs 0) ++ [[]]) =
          (1 + 1 + (child_lines cs 0).length) + 1 := by
        simp
        omega
      have hlast : List.drop (1 + 1 + (child_lines cs 0).length)
          ((("# bzr-builder format 0.1 deb-version ".toList ++ d) ::
            ((u0 :: u2) ++ ' ' :: ("revid:".toList ++ r)) ::
              child_lines cs 0) ++ [[]]) = [[]] := by
        have h1 : List.drop (1 + 1)
            ((("# bzr-builder format 0.1 deb-version ".toList ++ d) ::
              ((u0 :: u2) ++ ' ' :: ("revid:".toList ++ r)) ::
                child_lines cs 0) ++ [[]]) =
            child_lines cs 0 ++ [[]] := rfl
        rw [← List.drop_drop, h1, List.drop_left]
      rw [final_blank_exit "recipe".toList _
        (1 + 1 + (child_lines cs 0).length) cil2 stack2 li2
        (addChildren (RB.node none (u0 :: u2)
          (some ("revid:".toList ++ r)) none []) (parsedChildren cs))
        deep F2 hlen hlast (by omega) hst hpop]
      rfl
    · exact absurd habs (by omega)
  · simp only [different_shape_to]
    rw [if_neg (by simp), if_neg (by simp),
      if_neg (by simp [parsedChildren_length])]
    exact parsedChildren_no_diff (planSize cs) cs (le_refl _) hwf

/-- Witness for C5: a concrete resolved plan with a nest child (itself
containing a merge grandchild) and a merge child satisfies manifest_ready,
so its manifest parses back into a shape-equal plan. -/
theorem c5_round_trip_witness :
    manifest_ready (RB.node none ("http://base/".toList) none
      (some ("revbase".toList))
      [(RB.node (some ("nested".toList)) ("http://n/".toList) none
          (some ("revn".toList))
          [(RB.node (some ("inner".toList)) ("http://i/".toList) none
              (some ("revi".toList)) [], none)], some ("sub".toList)),
        (RB.node (some ("foo".toList)) ("http://foo/".toList) none
          (some ("rev2".toList)) [], none)]) ("1.0".toList) = true ∧
    ∃ m Q, build_manifest (RB.node none ("http://base/".toList) none
      (some ("revbase".toList))
      [(RB.node (some ("nested".toList)) ("http://n/".toList) none
          (some ("revn".toList))
          [(RB.node (some ("inner".toList)) ("http://i/".toList) none
              (some ("revi".toList)) [], none)], some ("sub".toList)),
        (RB.node (some ("foo".toList)) ("http://foo/".toList) none
          (some ("rev2".toList)) [], none)]) ("1.0".toList) = some m ∧
      parse m = .ok (Q, "1.0".toList) ∧
      different_shape_to (RB.node none ("http://base/".toList) none
        (some ("revbase".toList))
        [(RB.node (some ("nested".toList)) ("http://n/".toList) none
            (some ("revn".toList))
            [(RB.node (some ("inner".toList)) ("http://i/".toList) none
                (some ("revi".toList)) [], none)], some ("sub".toList)),
          (RB.node (some ("foo".toList)) ("http://foo/".toList) none
            (some ("rev2".toList)) [], none)]) Q = false :=
  ⟨by
    simp only [manifest_ready, wfChildren]
    decide,
   c5_round_trip _ _ (by
    simp only [manifest_ready, wfChildren]
    decide)⟩
